import Mathlib

/-!
# Verification of the rust-git object database and working-tree engine

Shallow embedding of the core of the `rust-git` repository (object codec,
KVLM codec, index codec, tree builder, ref resolver, checkout and rm
command logic) together with proofs settling the frozen claims about it.

Bytes are modelled as `Nat` (each field written with explicit `% 2^w`
where a width-`w` machine write occurs); Rust `Vec<u8>` / `&[u8]` become
`List Nat`; fallible operations return `Option` or `Except String`.
-/

namespace RustGit

/-! ## Byte-stream primitives

`u32BE`/`u16BE` model `byteorder::BigEndian` writes; `readU32`/`readU16`
model the corresponding `read_u32::<BigEndian>` / `read_u16::<BigEndian>`
calls (`read_exact` of 4 / 2 bytes, failing at end of stream). -/

def u32BE (n : Nat) : List Nat :=
  [n / 2 ^ 24 % 256, n / 2 ^ 16 % 256, n / 2 ^ 8 % 256, n % 256]

def u16BE (n : Nat) : List Nat :=
  [n / 2 ^ 8 % 256, n % 256]

def readU32 : List Nat → Option (Nat × List Nat)
  | b0 :: b1 :: b2 :: b3 :: rest =>
      some (b0 * 2 ^ 24 + b1 * 2 ^ 16 + b2 * 2 ^ 8 + b3, rest)
  | _ => none

def readU16 : List Nat → Option (Nat × List Nat)
  | b0 :: b1 :: rest => some (b0 * 2 ^ 8 + b1, rest)
  | _ => none

/-- Model of `read_exact` into an `n`-byte buffer: take exactly `n` bytes
or fail at end of stream. -/
def readExactN : Nat → List Nat → Option (List Nat × List Nat)
  | 0, bs => some ([], bs)
  | _ + 1, [] => none
  | n + 1, b :: t => (readExactN n t).map (fun p => (b :: p.1, p.2))

theorem readU32_append (n : Nat) (h : n < 2 ^ 32) (rest : List Nat) :
    readU32 (u32BE n ++ rest) = some (n, rest) := by
  simp only [u32BE, List.cons_append, List.nil_append, readU32]
  refine congrArg some (Prod.ext ?_ rfl)
  simp only
  omega

theorem readU16_append (n : Nat) (h : n < 2 ^ 16) (rest : List Nat) :
    readU16 (u16BE n ++ rest) = some (n, rest) := by
  simp only [u16BE, List.cons_append, List.nil_append, readU16]
  refine congrArg some (Prod.ext ?_ rfl)
  simp only
  omega

theorem optBind_some {α β : Type} (a : α) (f : α → Option β) :
    (some a >>= f) = f a := rfl

theorem readExactN_append (xs rest : List Nat) :
    readExactN xs.length (xs ++ rest) = some (xs, rest) := by
  induction xs with
  | nil => rfl
  | cons b t ih => simp [readExactN, ih]

/-- Model of the byte-at-a-time loop reading a NUL-terminated path:
returns the bytes before the first `0` and the remainder after it, or
fails if the stream ends before a `0` is found. -/
def breakAtZero : List Nat → Option (List Nat × List Nat)
  | [] => none
  | 0 :: t => some ([], t)
  | b :: t => (breakAtZero t).map (fun p => (b :: p.1, p.2))

theorem breakAtZero_append (p rest : List Nat) (hp : 0 ∉ p) :
    breakAtZero (p ++ 0 :: rest) = some (p, rest) := by
  induction p with
  | nil => rfl
  | cons b t ih =>
      have hb : b ≠ 0 := fun h => hp (h ▸ List.mem_cons_self b t)
      have ht : 0 ∉ t := fun h => hp (List.mem_cons_of_mem b h)
      cases b with
      | zero => exact absurd rfl hb
      | succ b' => simp [breakAtZero, ih ht]

/-! ## Hex codec

Models the `hex` crate: `hex::decode` (case-insensitive, fails on odd
length or a non-hex byte) and `hex::encode` (lowercase output). Bytes
are the ASCII codes of the hex characters. -/

def hexDigitVal (c : Nat) : Option Nat :=
  if 48 ≤ c ∧ c ≤ 57 then some (c - 48)
  else if 97 ≤ c ∧ c ≤ 102 then some (c - 87)
  else if 65 ≤ c ∧ c ≤ 70 then some (c - 55)
  else none

def hexDecode : List Nat → Option (List Nat)
  | [] => some []
  | [_] => none
  | a :: b :: t => do
      let va ← hexDigitVal a
      let vb ← hexDigitVal b
      let rest ← hexDecode t
      pure ((va * 16 + vb) :: rest)

def hexEncodeDigit (n : Nat) : Nat := if n < 10 then 48 + n else 87 + n

def hexEncode (bs : List Nat) : List Nat :=
  bs.flatMap fun b => [hexEncodeDigit (b / 16), hexEncodeDigit (b % 16)]

/-- ASCII code of a lowercase hex digit (`0-9`, `a-f`). -/
def isLowerHexDigit (c : Nat) : Prop := (48 ≤ c ∧ c ≤ 57) ∨ (97 ≤ c ∧ c ≤ 102)

instance (c : Nat) : Decidable (isLowerHexDigit c) := by
  unfold isLowerHexDigit; infer_instance

theorem hexDigitVal_lowerRound {c v : Nat} (hc : isLowerHexDigit c)
    (hv : hexDigitVal c = some v) : v < 16 ∧ hexEncodeDigit v = c := by
  unfold hexDigitVal at hv
  unfold hexEncodeDigit
  rcases hc with ⟨h1, h2⟩ | ⟨h1, h2⟩
  · rw [if_pos ⟨h1, h2⟩] at hv
    cases hv
    refine ⟨by omega, ?_⟩
    rw [if_pos (by omega)]
    omega
  · rw [if_neg (by omega), if_pos ⟨h1, h2⟩] at hv
    cases hv
    refine ⟨by omega, ?_⟩
    rw [if_neg (by omega)]
    omega

theorem hexDigitVal_isSome_of_lower {c : Nat} (hc : isLowerHexDigit c) :
    ∃ v, hexDigitVal c = some v := by
  unfold hexDigitVal
  rcases hc with ⟨h1, h2⟩ | ⟨h1, h2⟩
  · exact ⟨c - 48, if_pos ⟨h1, h2⟩⟩
  · rw [if_neg (by omega), if_pos ⟨h1, h2⟩]
    exact ⟨c - 87, rfl⟩

/-- Decoding a string of lowercase hex digits of even length succeeds, and
re-encoding the bytes reproduces the string exactly. -/
theorem hexDecode_lower : ∀ (s : List Nat), s.length % 2 = 0 →
    (∀ c ∈ s, isLowerHexDigit c) →
    ∃ bs, hexDecode s = some bs ∧ hexEncode bs = s ∧
      2 * bs.length = s.length ∧ ∀ b ∈ bs, b < 256
  | [], _, _ => ⟨[], rfl, by simp [hexEncode], rfl, by simp⟩
  | [_], h, _ => by simp at h
  | a :: b :: t, heven, hlow => by
      obtain ⟨va, hva⟩ := hexDigitVal_isSome_of_lower (hlow a (by simp))
      obtain ⟨vb, hvb⟩ := hexDigitVal_isSome_of_lower (hlow b (by simp))
      obtain ⟨bs, hdec, henc, hlen, hbnd⟩ :=
        hexDecode_lower t (by simp only [List.length_cons] at heven ⊢; omega)
          (fun c hc => hlow c (by simp [hc]))
      obtain ⟨hva16, hvaenc⟩ := hexDigitVal_lowerRound (hlow a (by simp)) hva
      obtain ⟨hvb16, hvbenc⟩ := hexDigitVal_lowerRound (hlow b (by simp)) hvb
      refine ⟨(va * 16 + vb) :: bs, ?_, ?_, by simp only [List.length_cons] at hlen ⊢; omega, ?_⟩
      · simp [hexDecode, hva, hvb, hdec]
      · simp only [hexEncode, List.flatMap_cons] at henc ⊢
        have h1 : (va * 16 + vb) / 16 = va := by omega
        have h2 : (va * 16 + vb) % 16 = vb := by omega
        rw [h1, h2, hvaenc, hvbenc, henc]
        rfl
      · intro x hx
        rcases List.mem_cons.mp hx with h | h
        · omega
        · exact hbnd x h

/-- Re-encoding then decoding raw bytes is the identity (used for the
SHA field of the index: `hex::encode` on read, `hex::decode` on write). -/
theorem hexDecode_hexEncode (bs : List Nat) (h : ∀ b ∈ bs, b < 256) :
    hexDecode (hexEncode bs) = some bs := by
  induction bs with
  | nil => simp [hexEncode, hexDecode]
  | cons b t ih =>
      have hb : b < 256 := h b (by simp)
      have hvd : hexDigitVal (hexEncodeDigit (b / 16)) = some (b / 16) := by
        unfold hexEncodeDigit hexDigitVal
        by_cases hlt : b / 16 < 10
        · rw [if_pos hlt, if_pos (by omega)]
          congr 1
          omega
        · rw [if_neg hlt, if_neg (by omega), if_pos (by omega)]
          congr 1
          omega
      have hvm : hexDigitVal (hexEncodeDigit (b % 16)) = some (b % 16) := by
        unfold hexEncodeDigit hexDigitVal
        by_cases hlt : b % 16 < 10
        · rw [if_pos hlt, if_pos (by omega)]
          congr 1
          omega
        · rw [if_neg hlt, if_neg (by omega), if_pos (by omega)]
          congr 1
          omega
      have ht := ih (fun x hx => h x (by simp [hx]))
      simp only [hexEncode, List.flatMap_cons, List.cons_append] at ht ⊢
      simp only [List.nil_append]
      simp [hexDecode, hvd, hvm, ht, hexEncode]
      omega

/-! ## UTF-8 validity

Model of the validity check performed by `String::from_utf8` (RFC 3629:
no overlong forms, no surrogates, max U+10FFFF), as a byte-list
recogniser. The index codec only needs that the same predicate is
checked on the unchanged bytes, but the definition is the standard
well-formedness automaton. -/

def utf8Cont (b : Nat) : Bool := decide (128 ≤ b ∧ b ≤ 191)

def utf8Valid : List Nat → Bool
  | [] => true
  | b :: t =>
    if b < 128 then utf8Valid t
    else if 194 ≤ b ∧ b ≤ 223 then
      match t with
      | c1 :: t1 => utf8Cont c1 && utf8Valid t1
      | [] => false
    else if b = 224 then
      match t with
      | c1 :: c2 :: t2 => decide (160 ≤ c1 ∧ c1 ≤ 191) && utf8Cont c2 && utf8Valid t2
      | _ => false
    else if 225 ≤ b ∧ b ≤ 236 then
      match t with
      | c1 :: c2 :: t2 => utf8Cont c1 && utf8Cont c2 && utf8Valid t2
      | _ => false
    else if b = 237 then
      match t with
      | c1 :: c2 :: t2 => decide (128 ≤ c1 ∧ c1 ≤ 159) && utf8Cont c2 && utf8Valid t2
      | _ => false
    else if 238 ≤ b ∧ b ≤ 239 then
      match t with
      | c1 :: c2 :: t2 => utf8Cont c1 && utf8Cont c2 && utf8Valid t2
      | _ => false
    else if b = 240 then
      match t with
      | c1 :: c2 :: c3 :: t3 =>
          decide (144 ≤ c1 ∧ c1 ≤ 191) && utf8Cont c2 && utf8Cont c3 && utf8Valid t3
      | _ => false
    else if 241 ≤ b ∧ b ≤ 243 then
      match t with
      | c1 :: c2 :: c3 :: t3 => utf8Cont c1 && utf8Cont c2 && utf8Cont c3 && utf8Valid t3
      | _ => false
    else if b = 244 then
      match t with
      | c1 :: c2 :: c3 :: t3 =>
          decide (128 ≤ c1 ∧ c1 ≤ 143) && utf8Cont c2 && utf8Cont c3 && utf8Valid t3
      | _ => false
    else false

/-! ## Index codec (`src/git/index.rs`)

In-memory form: `GitIndexEntry` mirrors the Rust struct — note that it
has no nanosecond fields (`read_index` discards them, `write_index`
writes zeros). `sha` holds the ASCII bytes of the 40-char hex string
kept in memory; `path` holds the UTF-8 bytes of the path `String`. -/

structure GitIndexEntry where
  ctime : Nat
  mtime : Nat
  dev : Nat
  ino : Nat
  mode : Nat
  uid : Nat
  gid : Nat
  size : Nat
  sha : List Nat
  flags : Nat
  path : List Nat
deriving DecidableEq, Repr

structure GitIndex where
  entries : List GitIndexEntry
deriving DecidableEq, Repr

/-- One iteration of the entry-reading loop of `read_index`: the 62-byte
fixed part (discarding both nanosecond words), the NUL-terminated path
(with the `String::from_utf8` validity check), then a seek over the
alignment padding computed from `62 + |path| + 1`. -/
def parseIndexEntry (bs : List Nat) : Option (GitIndexEntry × List Nat) := do
  let (ctime, bs) ← readU32 bs
  let (_, bs) ← readU32 bs
  let (mtime, bs) ← readU32 bs
  let (_, bs) ← readU32 bs
  let (dev, bs) ← readU32 bs
  let (ino, bs) ← readU32 bs
  let (mode, bs) ← readU32 bs
  let (uid, bs) ← readU32 bs
  let (gid, bs) ← readU32 bs
  let (size, bs) ← readU32 bs
  let (shaRaw, bs) ← readExactN 20 bs
  let (flags, bs) ← readU16 bs
  let (pathBytes, bs) ← breakAtZero bs
  if utf8Valid pathBytes then
    let entryLen := 62 + pathBytes.length + 1
    let padding := (8 - entryLen % 8) % 8
    some (⟨ctime, mtime, dev, ino, mode, uid, gid, size,
           hexEncode shaRaw, flags, pathBytes⟩, bs.drop padding)
  else none

def parseIndexEntries : Nat → List Nat → Option (List GitIndexEntry)
  | 0, _ => some []
  | n + 1, bs => do
      let (e, bs') ← parseIndexEntry bs
      let es ← parseIndexEntries n bs'
      pure (e :: es)

/-- `read_index` on the bytes of an existing index file: check the
`"DIRC"` magic and version 2, read the declared entry count, then read
exactly that many entries (any trailing bytes are ignored). -/
def readIndex (bs : List Nat) : Option GitIndex := do
  let (sig, bs) ← readExactN 4 bs
  if sig = [68, 73, 82, 67] then do
    let (version, bs) ← readU32 bs
    if version = 2 then do
      let (n, bs) ← readU32 bs
      let es ← parseIndexEntries n bs
      pure ⟨es⟩
    else none
  else none

/-- The bytes `write_index` produces for one entry: zero nanosecond
words, the hex-decoded SHA, the NUL-terminated path and zero padding. -/
def encodeIndexEntry (e : GitIndexEntry) : Option (List Nat) := do
  let shaBytes ← hexDecode e.sha
  let entryLen := 62 + e.path.length + 1
  let padding := (8 - entryLen % 8) % 8
  pure (u32BE e.ctime ++ u32BE 0 ++ u32BE e.mtime ++ u32BE 0 ++
        u32BE e.dev ++ u32BE e.ino ++ u32BE e.mode ++ u32BE e.uid ++
        u32BE e.gid ++ u32BE e.size ++ shaBytes ++ u16BE e.flags ++
        e.path ++ [0] ++ List.replicate padding 0)

/-- `write_index`: magic, version 2, entry count (`len as u32`, hence the
explicit `% 2^32`), then the encoded entries. -/
def writeIndex (idx : GitIndex) : Option (List Nat) := do
  let body ← idx.entries.mapM encodeIndexEntry
  pure ([68, 73, 82, 67] ++ u32BE 2 ++ u32BE (idx.entries.length % 2 ^ 32) ++ body.flatten)

/-! ## On-disk index file description

`IndexFileEntry` describes one entry as laid out in an index file on
disk, including the two nanosecond words that the in-memory
`GitIndexEntry` does not keep and the (arbitrary-valued) alignment
padding bytes. `encodeIndexFile` is the byte layout of a version-2
`DIRC` file made of such entries. -/

structure IndexFileEntry where
  ctime : Nat
  ctimeNs : Nat
  mtime : Nat
  mtimeNs : Nat
  dev : Nat
  ino : Nat
  mode : Nat
  uid : Nat
  gid : Nat
  size : Nat
  shaRaw : List Nat
  flags : Nat
  path : List Nat
  padBytes : List Nat
deriving DecidableEq, Repr

def encodeFileEntry (f : IndexFileEntry) : List Nat :=
  u32BE f.ctime ++ u32BE f.ctimeNs ++ u32BE f.mtime ++ u32BE f.mtimeNs ++
  u32BE f.dev ++ u32BE f.ino ++ u32BE f.mode ++ u32BE f.uid ++
  u32BE f.gid ++ u32BE f.size ++ f.shaRaw ++ u16BE f.flags ++
  f.path ++ [0] ++ f.padBytes

def encodeIndexFile (es : List IndexFileEntry) : List Nat :=
  [68, 73, 82, 67] ++ u32BE 2 ++ u32BE es.length ++ (es.map encodeFileEntry).flatten

/-- Well-formedness of an on-disk entry: integer fields fit their widths,
the raw SHA is 20 bytes, the path is NUL-free valid UTF-8, and the
padding has the length dictated by the 8-byte alignment rule. -/
def indexFileEntryWF (f : IndexFileEntry) : Prop :=
  f.ctime < 2 ^ 32 ∧ f.ctimeNs < 2 ^ 32 ∧ f.mtime < 2 ^ 32 ∧ f.mtimeNs < 2 ^ 32 ∧
  f.dev < 2 ^ 32 ∧ f.ino < 2 ^ 32 ∧ f.mode < 2 ^ 32 ∧ f.uid < 2 ^ 32 ∧
  f.gid < 2 ^ 32 ∧ f.size < 2 ^ 32 ∧
  f.shaRaw.length = 20 ∧ (∀ b ∈ f.shaRaw, b < 256) ∧ f.flags < 2 ^ 16 ∧
  0 ∉ f.path ∧ utf8Valid f.path = true ∧
  f.padBytes.length = (8 - (62 + f.path.length + 1) % 8) % 8

instance (f : IndexFileEntry) : Decidable (indexFileEntryWF f) := by
  unfold indexFileEntryWF; infer_instance

/-- What `read_index` keeps of an on-disk entry. -/
def stripFileEntry (f : IndexFileEntry) : GitIndexEntry :=
  ⟨f.ctime, f.mtime, f.dev, f.ino, f.mode, f.uid, f.gid, f.size,
   hexEncode f.shaRaw, f.flags, f.path⟩

/-- What `write_index` emits back: both nanosecond words zeroed and the
padding rewritten as zero bytes; every other field unchanged. -/
def normFileEntry (f : IndexFileEntry) : IndexFileEntry :=
  { f with ctimeNs := 0, mtimeNs := 0,
           padBytes := List.replicate ((8 - (62 + f.path.length + 1) % 8) % 8) 0 }

theorem parseIndexEntry_encode (f : IndexFileEntry) (rest : List Nat)
    (hwf : indexFileEntryWF f) :
    parseIndexEntry (encodeFileEntry f ++ rest) = some (stripFileEntry f, rest) := by
  obtain ⟨h1, h2, h3, h4, h5, h6, h7, h8, h9, h10, hsha, hshab, hfl, hp0, hputf, hpad⟩ := hwf
  have hsha20 : readExactN 20 (f.shaRaw ++ (u16BE f.flags ++
      (f.path ++ ([0] ++ (f.padBytes ++ rest))))) = some (f.shaRaw, u16BE f.flags ++
      (f.path ++ ([0] ++ (f.padBytes ++ rest)))) := by
    rw [← hsha]
    exact readExactN_append _ _
  have hbreak : breakAtZero (f.path ++ ([0] ++ (f.padBytes ++ rest))) =
      some (f.path, f.padBytes ++ rest) := by
    have heq : f.path ++ ([0] ++ (f.padBytes ++ rest)) =
        f.path ++ 0 :: (f.padBytes ++ rest) := rfl
    rw [heq, breakAtZero_append _ _ hp0]
  have hdrop : (f.padBytes ++ rest).drop ((8 - (62 + f.path.length + 1) % 8) % 8) = rest := by
    rw [← hpad, List.drop_left]
  simp only [encodeFileEntry, List.append_assoc, parseIndexEntry, optBind_some,
    readU32_append _ h1, readU32_append _ h2, readU32_append _ h3,
    readU32_append _ h4, readU32_append _ h5, readU32_append _ h6,
    readU32_append _ h7, readU32_append _ h8, readU32_append _ h9,
    readU32_append _ h10, hsha20, readU16_append _ hfl, hbreak,
    hputf, if_true, stripFileEntry]
  rw [hdrop]

theorem parseIndexEntries_encode (es : List IndexFileEntry) (rest : List Nat)
    (hwf : ∀ f ∈ es, indexFileEntryWF f) :
    parseIndexEntries es.length ((es.map encodeFileEntry).flatten ++ rest) =
      some (es.map stripFileEntry) := by
  induction es with
  | nil => rfl
  | cons f t ih =>
      simp only [List.map_cons, List.flatten_cons, List.length_cons, List.append_assoc,
        parseIndexEntries, optBind_some,
        parseIndexEntry_encode f _ (hwf f (by simp)),
        ih (fun g hg => hwf g (by simp [hg]))]
      rfl

theorem readIndex_encodeIndexFile (es : List IndexFileEntry) (trailing : List Nat)
    (hwf : ∀ f ∈ es, indexFileEntryWF f) (hn : es.length < 2 ^ 32) :
    readIndex (encodeIndexFile es ++ trailing) = some ⟨es.map stripFileEntry⟩ := by
  have hsig : readExactN 4 (([68, 73, 82, 67] : List Nat) ++
      (u32BE 2 ++ (u32BE es.length ++ ((es.map encodeFileEntry).flatten ++ trailing)))) =
      some ([68, 73, 82, 67], u32BE 2 ++ (u32BE es.length ++
        ((es.map encodeFileEntry).flatten ++ trailing))) :=
    readExactN_append [68, 73, 82, 67] _
  simp only [encodeIndexFile, List.append_assoc, readIndex, optBind_some, hsig,
    if_true, readU32_append 2 (by norm_num),
    readU32_append _ hn, parseIndexEntries_encode es trailing hwf]
  rfl

theorem encodeIndexEntry_strip (f : IndexFileEntry) (hwf : indexFileEntryWF f) :
    encodeIndexEntry (stripFileEntry f) = some (encodeFileEntry (normFileEntry f)) := by
  obtain ⟨h1, h2, h3, h4, h5, h6, h7, h8, h9, h10, hsha, hshab, hfl, hp0, hputf, hpad⟩ := hwf
  simp only [encodeIndexEntry, stripFileEntry, optBind_some,
    hexDecode_hexEncode f.shaRaw hshab, encodeFileEntry, normFileEntry]
  rfl

theorem mapM_encodeIndexEntry_strip (es : List IndexFileEntry)
    (hwf : ∀ f ∈ es, indexFileEntryWF f) :
    (es.map stripFileEntry).mapM encodeIndexEntry =
      some ((es.map normFileEntry).map encodeFileEntry) := by
  induction es with
  | nil => rfl
  | cons f t ih =>
      simp only [List.map_cons, List.mapM_cons, optBind_some,
        encodeIndexEntry_strip f (hwf f (by simp)),
        ih (fun g hg => hwf g (by simp [hg]))]
      rfl

theorem writeIndex_strip (es : List IndexFileEntry)
    (hwf : ∀ f ∈ es, indexFileEntryWF f) (hn : es.length < 2 ^ 32) :
    writeIndex ⟨es.map stripFileEntry⟩ =
      some (encodeIndexFile (es.map normFileEntry)) := by
  simp only [writeIndex, optBind_some, mapM_encodeIndexEntry_strip es hwf,
    encodeIndexFile, List.length_map, Nat.mod_eq_of_lt hn]
  rfl

/-! ## Round-trip of the in-memory index (claim C2) -/

/-- Well-formedness of an in-memory index entry: integer fields fit the
`u32`/`u16` types they have in Rust, the SHA string is 40 lowercase hex
characters, and the path is valid UTF-8 containing no NUL byte. -/
def indexEntryWF (e : GitIndexEntry) : Prop :=
  e.ctime < 2 ^ 32 ∧ e.mtime < 2 ^ 32 ∧ e.dev < 2 ^ 32 ∧ e.ino < 2 ^ 32 ∧
  e.mode < 2 ^ 32 ∧ e.uid < 2 ^ 32 ∧ e.gid < 2 ^ 32 ∧ e.size < 2 ^ 32 ∧
  e.flags < 2 ^ 16 ∧ e.sha.length = 40 ∧ (∀ c ∈ e.sha, isLowerHexDigit c) ∧
  utf8Valid e.path = true ∧ 0 ∉ e.path

instance (e : GitIndexEntry) : Decidable (indexEntryWF e) := by
  unfold indexEntryWF; infer_instance

/-- The on-disk entry that `write_index` produces for an in-memory entry. -/
def liftIndexEntry (e : GitIndexEntry) : IndexFileEntry :=
  ⟨e.ctime, 0, e.mtime, 0, e.dev, e.ino, e.mode, e.uid, e.gid, e.size,
   (hexDecode e.sha).getD [], e.flags, e.path,
   List.replicate ((8 - (62 + e.path.length + 1) % 8) % 8) 0⟩

theorem hexDecode_forty (s : List Nat) (hlen : s.length = 40)
    (hlow : ∀ c ∈ s, isLowerHexDigit c) :
    ∃ bs, hexDecode s = some bs ∧ hexEncode bs = s ∧ bs.length = 20 ∧
      ∀ b ∈ bs, b < 256 := by
  obtain ⟨bs, h1, h2, h3, h4⟩ := hexDecode_lower s (by rw [hlen]) hlow
  exact ⟨bs, h1, h2, by omega, h4⟩

theorem liftIndexEntry_wf (e : GitIndexEntry) (hwf : indexEntryWF e) :
    indexFileEntryWF (liftIndexEntry e) := by
  obtain ⟨h1, h2, h3, h4, h5, h6, h7, h8, h9, hlen, hlow, hputf, hp0⟩ := hwf
  obtain ⟨bs, hdec, henc, hbslen, hbnd⟩ := hexDecode_forty e.sha hlen hlow
  unfold indexFileEntryWF liftIndexEntry
  simp only [hdec, Option.getD_some]
  exact ⟨h1, by norm_num, h2, by norm_num, h3, h4, h5, h6, h7, h8, hbslen, hbnd,
    h9, hp0, hputf, by simp⟩

theorem stripFileEntry_lift (e : GitIndexEntry) (hwf : indexEntryWF e) :
    stripFileEntry (liftIndexEntry e) = e := by
  obtain ⟨h1, h2, h3, h4, h5, h6, h7, h8, h9, hlen, hlow, hputf, hp0⟩ := hwf
  obtain ⟨bs, hdec, henc, hbslen, hbnd⟩ := hexDecode_forty e.sha hlen hlow
  obtain ⟨ct, mt, dv, io, md, ud, gd, sz, sh, fl, pa⟩ := e
  simp only [stripFileEntry, liftIndexEntry] at *
  rw [hdec]
  simp only [Option.getD_some]
  rw [henc]

theorem normFileEntry_lift (e : GitIndexEntry) :
    normFileEntry (liftIndexEntry e) = liftIndexEntry e := rfl

set_option maxRecDepth 4096 in
/-- C2 (amended): for a well-formed index whose paths additionally
contain no NUL byte, writing the index and reading the bytes back
reproduces the index field-by-field. -/
theorem c2_index_roundtrip_amended (idx : GitIndex)
    (hwf : ∀ e ∈ idx.entries, indexEntryWF e)
    (hn : idx.entries.length < 2 ^ 32) :
    (writeIndex idx).bind readIndex = some idx := by
  obtain ⟨es⟩ := idx
  simp only at hwf hn
  have hwfF : ∀ f ∈ es.map liftIndexEntry, indexFileEntryWF f := by
    intro f hf
    obtain ⟨e, he, rfl⟩ := List.mem_map.mp hf
    exact liftIndexEntry_wf e (hwf e he)
  have hstrip : (es.map liftIndexEntry).map stripFileEntry = es := by
    rw [List.map_map]
    have : es.map (stripFileEntry ∘ liftIndexEntry) = es.map id :=
      List.map_congr_left (fun e he => stripFileEntry_lift e (hwf e he))
    rw [this, List.map_id]
  have hnorm : (es.map liftIndexEntry).map normFileEntry = es.map liftIndexEntry := by
    rw [List.map_map]
    exact List.map_congr_left (fun e _ => normFileEntry_lift e)
  have hlenF : (es.map liftIndexEntry).length < 2 ^ 32 := by rwa [List.length_map]
  have hw := writeIndex_strip (es.map liftIndexEntry) hwfF hlenF
  rw [hstrip, hnorm] at hw
  have hr := readIndex_encodeIndexFile (es.map liftIndexEntry) [] hwfF hlenF
  rw [List.append_nil, hstrip] at hr
  rw [hw, Option.some_bind]
  exact hr

def c2Sample : GitIndex :=
  ⟨[⟨1, 2, 3, 4, 5, 6, 7, 8, List.replicate 40 97, 9, [104, 105]⟩]⟩

theorem c2_index_roundtrip_witness :
    (writeIndex c2Sample).bind readIndex = some c2Sample :=
  c2_index_roundtrip_amended c2Sample (by decide) (by decide)

/-- An index entry whose path is the valid UTF-8 string `"a\u{0}b"`. -/
def c2NulEntry : GitIndexEntry :=
  ⟨0, 0, 0, 0, 0, 0, 0, 0, List.replicate 40 48, 0, [97, 0, 98]⟩

/-- C2 counterexample: the entry satisfies every condition the claim
states (UTF-8 path, 40-char lowercase-hex SHA, entry count below
`2^32`), yet read-after-write does not reproduce the index: the path
`"a\u{0}b"` is written NUL-terminated, so reading stops at the embedded
NUL and returns path `"a"`. -/
theorem c2_roundtrip_fails_on_nul_path :
    utf8Valid c2NulEntry.path = true ∧
    c2NulEntry.sha.length = 40 ∧ (∀ c ∈ c2NulEntry.sha, isLowerHexDigit c) ∧
    (writeIndex ⟨[c2NulEntry]⟩).bind readIndex =
      some ⟨[⟨0, 0, 0, 0, 0, 0, 0, 0, List.replicate 40 48, 0, [97]⟩]⟩ ∧
    (writeIndex ⟨[c2NulEntry]⟩).bind readIndex ≠ some ⟨[c2NulEntry]⟩ := by
  decide

/-- C10: for every well-formed index file on disk (arbitrary nanosecond
words, arbitrary padding bytes, arbitrary trailing bytes such as a
checksum), reading the file keeps every entry field except the two
nanosecond words, and writing the result back yields the same file with
both nanosecond words of every entry replaced by zero (and the padding
normalised to zero bytes, the trailer dropped). -/
theorem c10_index_write_read_zeroes_nanoseconds
    (es : List IndexFileEntry) (trailing : List Nat)
    (hwf : ∀ f ∈ es, indexFileEntryWF f) (hn : es.length < 2 ^ 32) :
    readIndex (encodeIndexFile es ++ trailing) = some ⟨es.map stripFileEntry⟩ ∧
    writeIndex ⟨es.map stripFileEntry⟩ = some (encodeIndexFile (es.map normFileEntry)) :=
  ⟨readIndex_encodeIndexFile es trailing hwf hn, writeIndex_strip es hwf hn⟩

/-- An on-disk entry with nonzero nanosecond fields and nonzero padding. -/
def c10Entry : IndexFileEntry :=
  ⟨1, 111, 2, 222, 3, 4, 5, 6, 7, 8, List.replicate 20 171, 9, [97, 98],
   List.replicate 7 255⟩

theorem c10_index_nanoseconds_witness :
    readIndex (encodeIndexFile [c10Entry] ++ [1, 2, 3]) =
      some ⟨[stripFileEntry c10Entry]⟩ ∧
    writeIndex ⟨[stripFileEntry c10Entry]⟩ =
      some (encodeIndexFile [normFileEntry c10Entry]) :=
  c10_index_write_read_zeroes_nanoseconds [c10Entry] [1, 2, 3] (by decide) (by decide)

/-! ## KVLM codec (`src/git/kvlm.rs`)

Headers are an ordered list of `(key, value)` byte-string pairs followed
by a message body. `kvlm_serialize` inserts `LF SP` before every
embedded LF of a value; `kvlm_parse` is the position-based loop of the
source, modelled on byte lists (the current suffix plays the role of
`raw[pos..]`; `contEndF` is the continuation-scanning inner loop with a
fuel argument as termination device — each outer iteration consumes at
least two bytes and each inner iteration advances the scan position, so
fuel `|raw|` is never exhausted). -/

structure Kvlm where
  headers : List (List Nat × List Nat)
  message : List Nat
deriving DecidableEq, Repr

deriving instance DecidableEq for Except

def kvlmEscape (v : List Nat) : List Nat :=
  v.flatMap fun b => if b = 10 then [10, 32] else [b]

def kvlmSerialize (k : Kvlm) : List Nat :=
  (k.headers.flatMap fun kv => kv.1 ++ [32] ++ kvlmEscape kv.2 ++ [10]) ++ [10] ++ k.message

/-- Index of the first occurrence of byte `b`, mirroring
`iter().position(...)`. -/
def findIdxOpt (b : Nat) : List Nat → Option Nat
  | [] => none
  | x :: t => if x = b then some 0 else (findIdxOpt b t).map (· + 1)

/-- First occurrence of `b` at index `k` or later (`next_new_line`). -/
def findIdxFrom (b : Nat) (s : List Nat) (k : Nat) : Option Nat :=
  (findIdxOpt b (s.drop k)).map (· + k)

/-- `s[n]` as a total function (the callers guard with `n < s.length`). -/
def byteAt (s : List Nat) (n : Nat) : Nat := (s.drop n).headD 0

/-- The continuation loop of `kvlm_parse`: starting from position `e`,
repeatedly find the next LF; if it is followed by a SP keep scanning,
otherwise return its index. `none` models the `Expected new line in
KVLM` error of `next_new_line`. -/
def contEndF : Nat → List Nat → Nat → Option Nat
  | 0, _, _ => none
  | fuel + 1, s, e =>
    match findIdxFrom 10 s (e + 1) with
    | none => none
    | some j =>
        if j + 1 < s.length ∧ byteAt s (j + 1) = 32 then contEndF fuel s j
        else some j

def contEnd (s : List Nat) (e : Nat) : Option Nat := contEndF s.length s e

/-- The value-unescaping loop: `LF SP` becomes `LF`, everything else is
copied (an `LF` not followed by `SP`, including a trailing one, is
copied as-is). -/
def kvlmUnescape : List Nat → List Nat
  | [] => []
  | [b] => [b]
  | b :: c :: t =>
    if b = 10 ∧ c = 32 then 10 :: kvlmUnescape t
    else b :: kvlmUnescape (c :: t)

/-- The main loop of `kvlm_parse` on the current suffix `s` of the input:
dispatch on the relative positions of the first SP and the first LF.
LF first (or no SP): the line must be blank and the rest is the message.
SP first: take the key, scan the continuation end, unescape the value
slice and continue after it (clearing the message if input ends). -/
def kvlmParseLoopF : Nat → List Nat → Except String (List (List Nat × List Nat) × List Nat)
  | 0, _ => .error "fuel exhausted"
  | fuel + 1, s =>
    match findIdxOpt 32 s, findIdxOpt 10 s with
    | none, some nl =>
        if nl ≠ 0 then .error "malformed KVLM: expected blank line at headers/message boundary"
        else .ok ([], s.drop (nl + 1))
    | some spc, some nl =>
        if nl < spc then
          if nl ≠ 0 then .error "malformed KVLM: expected blank line at headers/message boundary"
          else .ok ([], s.drop (nl + 1))
        else
          match contEnd s spc with
          | none => .error "Expected new line in KVLM"
          | some e =>
              let key := s.take spc
              let val := kvlmUnescape ((s.drop (spc + 1)).take (e - (spc + 1)))
              let rest := s.drop (e + 1)
              if rest.isEmpty then .ok ([(key, val)], [])
              else
                match kvlmParseLoopF fuel rest with
                | .ok (hs, msg) => .ok ((key, val) :: hs, msg)
                | .error err => .error err
    | _, none => .error "malformed KVLM: missing space/newline in header"

def kvlmParse (raw : List Nat) : Except String Kvlm :=
  if raw.isEmpty then .ok ⟨[], []⟩
  else
    match kvlmParseLoopF raw.length raw with
    | .ok (hs, msg) => .ok ⟨hs, msg⟩
    | .error err => .error err

/-! ### Round-trip of the KVLM codec -/

theorem findIdxOpt_cons_self (b : Nat) (t : List Nat) :
    findIdxOpt b (b :: t) = some 0 := by
  simp [findIdxOpt]

theorem findIdxOpt_cons_ne {b c : Nat} (t : List Nat) (h : c ≠ b) :
    findIdxOpt b (c :: t) = (findIdxOpt b t).map (· + 1) := by
  simp [findIdxOpt, h]

theorem findIdxOpt_append_not_mem {b : Nat} (xs ys : List Nat) (h : b ∉ xs) :
    findIdxOpt b (xs ++ ys) = (findIdxOpt b ys).map (· + xs.length) := by
  induction xs with
  | nil =>
      cases hy : findIdxOpt b ys <;> simp [hy]
  | cons c t ih =>
      have hc : c ≠ b := fun hc => h (hc ▸ List.mem_cons_self c t)
      have ht : b ∉ t := fun hm => h (List.mem_cons_of_mem c hm)
      rw [List.cons_append, findIdxOpt_cons_ne _ hc, ih ht]
      cases hy : findIdxOpt b ys <;> simp [hy] <;> omega

theorem findIdxOpt_isSome_of_mem {b : Nat} {s : List Nat} (h : b ∈ s) :
    ∃ i, findIdxOpt b s = some i := by
  induction s with
  | nil => cases h
  | cons c t ih =>
      by_cases hc : c = b
      · exact ⟨0, by simp [findIdxOpt, hc]⟩
      · have hmem : b ∈ t := by
          cases List.mem_cons.mp h with
          | inl h1 => exact absurd h1.symm hc
          | inr h2 => exact h2
        obtain ⟨i, hi⟩ := ih hmem
        exact ⟨i + 1, by rw [findIdxOpt_cons_ne _ hc, hi]; rfl⟩

theorem drop_succ_of_drop {s X : List Nat} {c k : Nat} (h : s.drop k = c :: X) :
    s.drop (k + 1) = X := by
  rw [← List.tail_drop, h]
  rfl

theorem byteAt_of_drop {s X : List Nat} {k : Nat} (h : s.drop k = X) (m : Nat) :
    byteAt s (k + m) = byteAt X m := by
  unfold byteAt
  rw [← List.drop_drop, h]

/-- Unfolding equation for `contEndF` at positive fuel. -/
theorem contEndF_succ (g : Nat) (s : List Nat) (e : Nat) :
    contEndF (g + 1) s e =
      match findIdxFrom 10 s (e + 1) with
      | none => none
      | some j =>
          if j + 1 < s.length ∧ byteAt s (j + 1) = 32 then contEndF g s j
          else some j := rfl

/-- The escaped shape of a serialized value: every LF is immediately
followed by a SP. -/
inductive Escaped : List Nat → Prop
  | nil : Escaped []
  | other {b : Nat} {t : List Nat} (hb : b ≠ 10) (ht : Escaped t) : Escaped (b :: t)
  | newl {t : List Nat} (ht : Escaped t) : Escaped (10 :: 32 :: t)

theorem escaped_kvlmEscape (v : List Nat) : Escaped (kvlmEscape v) := by
  induction v with
  | nil =>
      have h : kvlmEscape [] = [] := by simp [kvlmEscape]
      rw [h]
      exact .nil
  | cons b t ih =>
      have hstep : kvlmEscape (b :: t) = (if b = 10 then [10, 32] else [b]) ++ kvlmEscape t := by
        simp [kvlmEscape]
      rw [hstep]
      by_cases hb : b = 10
      · subst hb
        simp only [if_pos rfl]
        exact .newl ih
      · simp only [if_neg hb]
        exact .other hb ih

theorem kvlmUnescape_escape (v : List Nat) : kvlmUnescape (kvlmEscape v) = v := by
  induction v with
  | nil => simp [kvlmEscape, kvlmUnescape]
  | cons b t ih =>
      by_cases hb : b = 10
      · subst hb
        have h : kvlmEscape (10 :: t) = 10 :: 32 :: kvlmEscape t := by simp [kvlmEscape]
        rw [h]
        have h2 : kvlmUnescape (10 :: 32 :: kvlmEscape t) = 10 :: kvlmUnescape (kvlmEscape t) := by
          simp [kvlmUnescape]
        rw [h2, ih]
      · have h : kvlmEscape (b :: t) = b :: kvlmEscape t := by simp [kvlmEscape, hb]
        rw [h]
        cases hE : kvlmEscape t with
        | nil =>
            rw [hE] at ih
            have ht : t = [] := by simpa [kvlmUnescape] using ih
            subst ht
            simp [kvlmUnescape]
        | cons c X =>
            have hcne : ¬(b = 10 ∧ c = 32) := fun hc => hb hc.1
            have h3 : kvlmUnescape (b :: c :: X) = b :: kvlmUnescape (c :: X) := by
              simp [kvlmUnescape, hcne]
            rw [h3, ← hE, ih]

theorem contEndF_escaped :
    ∀ (escV : List Nat), Escaped escV →
    ∀ (s rest : List Nat) (e fuel : Nat),
      s.drop (e + 1) = escV ++ 10 :: rest →
      escV.length + 1 ≤ fuel →
      rest.headD 0 ≠ 32 →
      contEndF fuel s e = some (e + 1 + escV.length) := by
  intro escV hE
  induction hE with
  | nil =>
      intro s rest e fuel hdrop hfuel hrest
      obtain ⟨f, rfl⟩ : ∃ f, fuel = f + 1 := ⟨fuel - 1, by omega⟩
      simp only [List.nil_append] at hdrop
      have hne : e + 1 < s.length := by
        by_contra hc
        push_neg at hc
        rw [List.drop_eq_nil_of_le hc] at hdrop
        cases hdrop
      have hlen : s.length = e + 1 + (1 + rest.length) := by
        have := congrArg List.length hdrop
        rw [List.length_drop] at this
        simp only [List.length_cons] at this
        omega
      have hfind : findIdxFrom 10 s (e + 1) = some (e + 1) := by
        simp [findIdxFrom, hdrop, findIdxOpt_cons_self]
      rw [contEndF_succ, hfind]
      dsimp only
      have hguard : ¬(e + 1 + 1 < s.length ∧ byteAt s (e + 1 + 1) = 32) := by
        rintro ⟨hlt, hb⟩
        cases rest with
        | nil => simp at hlen; omega
        | cons r rs =>
            have hbr : byteAt s (e + 1 + 1) = r := by
              have h2 : s.drop (e + 1 + 1) = r :: rs := drop_succ_of_drop hdrop
              have := byteAt_of_drop h2 0
              simpa [byteAt] using this
            rw [hbr] at hb
            exact hrest (by simpa using hb)
      rw [if_neg hguard]
      simp
  | @other b t hb ht ih =>
      intro s rest e fuel hdrop hfuel hrest
      obtain ⟨f, rfl⟩ : ∃ f, fuel = f + 1 := ⟨fuel - 1, by omega⟩
      have hdrop1 : s.drop (e + 1) = b :: (t ++ 10 :: rest) := by rw [hdrop]; rfl
      have hdrop2 : s.drop (e + 1 + 1) = t ++ 10 :: rest := drop_succ_of_drop hdrop1
      have hfind : findIdxFrom 10 s (e + 1) = findIdxFrom 10 s (e + 1 + 1) := by
        rw [findIdxFrom, findIdxFrom, hdrop1, hdrop2, findIdxOpt_cons_ne _ hb]
        cases hy : findIdxOpt 10 (t ++ 10 :: rest) <;> simp [hy] <;> omega
      rw [contEndF_succ, hfind, ← contEndF_succ]
      have := ih s rest (e + 1) (f + 1) hdrop2
        (by simp only [List.length_cons] at hfuel; omega) hrest
      rw [this]
      congr 1
      simp only [List.length_cons]
      omega
  | @newl t ht ih =>
      intro s rest e fuel hdrop hfuel hrest
      obtain ⟨f, rfl⟩ : ∃ f, fuel = f + 2 :=
        ⟨fuel - 2, by simp only [List.length_cons] at hfuel; omega⟩
      have hdrop1 : s.drop (e + 1) = 10 :: (32 :: (t ++ 10 :: rest)) := by rw [hdrop]; rfl
      have hdrop2 : s.drop (e + 1 + 1) = 32 :: (t ++ 10 :: rest) := drop_succ_of_drop hdrop1
      have hdrop3 : s.drop (e + 1 + 1 + 1) = t ++ 10 :: rest := drop_succ_of_drop hdrop2
      have hne : e + 1 < s.length := by
        by_contra hc
        push_neg at hc
        rw [List.drop_eq_nil_of_le hc] at hdrop1
        cases hdrop1
      have hlen : s.length = e + 1 + (2 + (t.length + (1 + rest.length))) := by
        have := congrArg List.length hdrop1
        rw [List.length_drop] at this
        simp only [List.length_cons, List.length_append] at this
        omega
      have hfind1 : findIdxFrom 10 s (e + 1) = some (e + 1) := by
        simp [findIdxFrom, hdrop1, findIdxOpt_cons_self]
      have hbyte : byteAt s (e + 1 + 1) = 32 := by
        have := byteAt_of_drop hdrop2 0
        simpa [byteAt] using this
      rw [contEndF_succ, hfind1]
      dsimp only
      rw [if_pos ⟨by omega, hbyte⟩]
      have hfind2 : findIdxFrom 10 s (e + 1 + 1) = findIdxFrom 10 s (e + 1 + 1 + 1) := by
        rw [findIdxFrom, findIdxFrom, hdrop2, hdrop3,
          findIdxOpt_cons_ne _ (by omega : (32 : Nat) ≠ 10)]
        cases hy : findIdxOpt 10 (t ++ 10 :: rest) <;> simp [hy] <;> omega
      rw [contEndF_succ, hfind2, ← contEndF_succ]
      have := ih s rest (e + 1 + 1) (f + 1) hdrop3
        (by simp only [List.length_cons] at hfuel; omega) hrest
      rw [this]
      congr 1
      simp only [List.length_cons]
      omega

/-- Unfolding equation for `kvlmParseLoopF` at positive fuel. -/
theorem kvlmParseLoopF_succ (g : Nat) (s : List Nat) :
    kvlmParseLoopF (g + 1) s =
      match findIdxOpt 32 s, findIdxOpt 10 s with
      | none, some nl =>
          if nl ≠ 0 then .error "malformed KVLM: expected blank line at headers/message boundary"
          else .ok ([], s.drop (nl + 1))
      | some spc, some nl =>
          if nl < spc then
            if nl ≠ 0 then .error "malformed KVLM: expected blank line at headers/message boundary"
            else .ok ([], s.drop (nl + 1))
          else
            match contEnd s spc with
            | none => .error "Expected new line in KVLM"
            | some e =>
                let key := s.take spc
                let val := kvlmUnescape ((s.drop (spc + 1)).take (e - (spc + 1)))
                let rest := s.drop (e + 1)
                if rest.isEmpty then .ok ([(key, val)], [])
                else
                  match kvlmParseLoopF g rest with
                  | .ok (hs, msg) => .ok ((key, val) :: hs, msg)
                  | .error err => .error err
      | _, none => .error "malformed KVLM: missing space/newline in header" := rfl

/-- The header part of a serialized KVLM record. -/
def serializeHeaders (hs : List (List Nat × List Nat)) : List Nat :=
  hs.flatMap fun kv => kv.1 ++ [32] ++ kvlmEscape kv.2 ++ [10]

theorem kvlmSerialize_eq (k : Kvlm) :
    kvlmSerialize k = serializeHeaders k.headers ++ 10 :: k.message := by
  simp [kvlmSerialize, serializeHeaders, List.append_assoc]

/-- The keys a serialized header list must have for parsing to recover
it: nonempty and free of SP and LF. -/
def kvlmKeysWF (hs : List (List Nat × List Nat)) : Prop :=
  ∀ kv ∈ hs, kv.1 ≠ [] ∧ 32 ∉ kv.1 ∧ 10 ∉ kv.1

instance (hs : List (List Nat × List Nat)) : Decidable (kvlmKeysWF hs) := by
  unfold kvlmKeysWF; infer_instance

theorem serialize_suffix_headD (hs : List (List Nat × List Nat)) (msg : List Nat)
    (h : kvlmKeysWF hs) : (serializeHeaders hs ++ 10 :: msg).headD 0 ≠ 32 := by
  cases hs with
  | nil => simp [serializeHeaders]
  | cons kv t =>
      obtain ⟨hne, h32, _⟩ := h kv (List.mem_cons_self kv t)
      cases hk : kv.1 with
      | nil => exact absurd hk hne
      | cons c k' =>
          have hc : c ≠ 32 := fun hc => h32 (hk ▸ (hc ▸ List.mem_cons_self c k'))
          simp [serializeHeaders, hk, hc]

theorem serialize_suffix_ne_nil (hs : List (List Nat × List Nat)) (msg : List Nat) :
    (serializeHeaders hs ++ 10 :: msg).isEmpty = false := by
  cases he : serializeHeaders hs <;> simp [he]

theorem kvlmParseLoopF_serialize :
    ∀ (hs : List (List Nat × List Nat)) (msg : List Nat) (fuel : Nat),
      kvlmKeysWF hs →
      (serializeHeaders hs ++ 10 :: msg).length ≤ fuel →
      kvlmParseLoopF fuel (serializeHeaders hs ++ 10 :: msg) = .ok (hs, msg) := by
  intro hs
  induction hs with
  | nil =>
      intro msg fuel _ hfuel
      have h0 : serializeHeaders [] = [] := rfl
      rw [h0, List.nil_append] at hfuel ⊢
      obtain ⟨f, rfl⟩ : ∃ f, fuel = f + 1 :=
        ⟨fuel - 1, by simp only [List.length_cons] at hfuel; omega⟩
      rw [kvlmParseLoopF_succ]
      have hnl : findIdxOpt 10 (10 :: msg) = some 0 := findIdxOpt_cons_self _ _
      rw [hnl]
      cases hspc : findIdxOpt 32 (10 :: msg) with
      | none => rfl
      | some spc =>
          have hpos : 0 < spc := by
            rw [findIdxOpt_cons_ne _ (by omega : (10 : Nat) ≠ 32)] at hspc
            cases hy : findIdxOpt 32 msg with
            | none => rw [hy] at hspc; cases hspc
            | some i =>
                rw [hy] at hspc
                have h2 : i + 1 = spc := Option.some.inj hspc
                omega
          dsimp only
          rw [if_pos hpos, if_neg (by omega)]
          rfl
  | cons kv t ih =>
      intro msg fuel hwf hfuel
      obtain ⟨key, v⟩ := kv
      obtain ⟨hkne, hk32, hk10⟩ := hwf (key, v) (List.mem_cons_self _ t)
      have hwt : kvlmKeysWF t := fun kv hkv => hwf kv (List.mem_cons_of_mem _ hkv)
      have hshape : serializeHeaders ((key, v) :: t) ++ 10 :: msg =
          key ++ 32 :: (kvlmEscape v ++ 10 :: (serializeHeaders t ++ 10 :: msg)) := by
        simp [serializeHeaders, List.append_assoc]
      rw [hshape] at hfuel ⊢
      have hslen : (key ++ 32 :: (kvlmEscape v ++ 10 :: (serializeHeaders t ++ 10 :: msg))).length
          = key.length + 1 + (kvlmEscape v).length + 1 + (serializeHeaders t ++ 10 :: msg).length := by
        simp
        omega
      obtain ⟨f, rfl⟩ : ∃ f, fuel = f + 1 :=
        ⟨fuel - 1, by rw [hslen] at hfuel; omega⟩
      rw [kvlmParseLoopF_succ]
      have hspc : findIdxOpt 32 (key ++ 32 :: (kvlmEscape v ++ 10 :: (serializeHeaders t ++ 10 :: msg)))
          = some key.length := by
        rw [findIdxOpt_append_not_mem _ _ hk32, findIdxOpt_cons_self]
        simp
      obtain ⟨i, hi⟩ := findIdxOpt_isSome_of_mem
        (show (10 : Nat) ∈ 32 :: (kvlmEscape v ++ 10 :: (serializeHeaders t ++ 10 :: msg)) by simp)
      have hipos : 1 ≤ i := by
        rw [findIdxOpt_cons_ne _ (by omega : (32 : Nat) ≠ 10)] at hi
        cases hy : findIdxOpt 10 (kvlmEscape v ++ 10 :: (serializeHeaders t ++ 10 :: msg)) with
        | none => rw [hy] at hi; cases hi
        | some j =>
            rw [hy] at hi
            have h2 : j + 1 = i := Option.some.inj hi
            omega
      have hnl : findIdxOpt 10 (key ++ 32 :: (kvlmEscape v ++ 10 :: (serializeHeaders t ++ 10 :: msg)))
          = some (i + key.length) := by
        rw [findIdxOpt_append_not_mem _ _ hk10, hi]
        rfl
      rw [hspc, hnl]
      dsimp only
      rw [if_neg (by omega)]
      have hdropK : (key ++ 32 :: (kvlmEscape v ++ 10 :: (serializeHeaders t ++ 10 :: msg))).drop
          (key.length + 1) = kvlmEscape v ++ 10 :: (serializeHeaders t ++ 10 :: msg) := by
        have h1 : key ++ 32 :: (kvlmEscape v ++ 10 :: (serializeHeaders t ++ 10 :: msg)) =
            (key ++ [32]) ++ (kvlmEscape v ++ 10 :: (serializeHeaders t ++ 10 :: msg)) := by
          simp
        have h2 : key.length + 1 = (key ++ [32]).length := by simp
        rw [h1, h2, List.drop_left]
      have hcont : contEnd (key ++ 32 :: (kvlmEscape v ++ 10 :: (serializeHeaders t ++ 10 :: msg)))
          key.length = some (key.length + 1 + (kvlmEscape v).length) := by
        unfold contEnd
        exact contEndF_escaped (kvlmEscape v) (escaped_kvlmEscape v) _
          (serializeHeaders t ++ 10 :: msg) key.length _ hdropK
          (by rw [hslen]; omega) (serialize_suffix_headD t msg hwt)
      rw [hcont]
      dsimp only
      have htake : (key ++ 32 :: (kvlmEscape v ++ 10 :: (serializeHeaders t ++ 10 :: msg))).take
          key.length = key := List.take_left _ _
      have hvalslice : ((key ++ 32 :: (kvlmEscape v ++ 10 :: (serializeHeaders t ++ 10 :: msg))).drop
          (key.length + 1)).take (key.length + 1 + (kvlmEscape v).length - (key.length + 1)) =
          kvlmEscape v := by
        rw [hdropK, show key.length + 1 + (kvlmEscape v).length - (key.length + 1) =
          (kvlmEscape v).length from by omega]
        exact List.take_left _ _
      have hdropRest : (key ++ 32 :: (kvlmEscape v ++ 10 :: (serializeHeaders t ++ 10 :: msg))).drop
          (key.length + 1 + (kvlmEscape v).length + 1) = serializeHeaders t ++ 10 :: msg := by
        have h1 : key ++ 32 :: (kvlmEscape v ++ 10 :: (serializeHeaders t ++ 10 :: msg)) =
            (key ++ 32 :: (kvlmEscape v ++ [10])) ++ (serializeHeaders t ++ 10 :: msg) := by
          simp
        have h2 : key.length + 1 + (kvlmEscape v).length + 1 =
            (key ++ 32 :: (kvlmEscape v ++ [10])).length := by
          simp
          omega
        rw [h1, h2, List.drop_left]
      rw [htake, hvalslice, hdropRest, kvlmUnescape_escape]
      rw [serialize_suffix_ne_nil t msg]
      rw [if_neg (by simp : ¬(false = true))]
      rw [ih msg f hwt (by rw [hslen] at hfuel; omega)]

/-- C3 (amended): parsing the serialization of a KVLM record recovers the
record exactly, provided every header key is nonempty and contains
neither SP nor LF; values are arbitrary byte strings (LF included) and
the message is arbitrary. -/
theorem c3_kvlm_roundtrip_amended (k : Kvlm) (hkeys : kvlmKeysWF k.headers) :
    kvlmParse (kvlmSerialize k) = .ok k := by
  obtain ⟨hs, msg⟩ := k
  rw [kvlmSerialize_eq]
  unfold kvlmParse
  rw [if_neg (by rw [serialize_suffix_ne_nil hs msg]; simp)]
  rw [kvlmParseLoopF_serialize hs msg _ hkeys (le_refl _)]

theorem c3_kvlm_roundtrip_witness :
    kvlmParse (kvlmSerialize ⟨[([116, 114, 101, 101], [97, 10, 98]),
      ([112], [])], [104, 105, 10]⟩) =
      .ok ⟨[([116, 114, 101, 101], [97, 10, 98]), ([112], [])], [104, 105, 10]⟩ :=
  c3_kvlm_roundtrip_amended _ (by decide)

/-- C3 counterexample: the record with the single header `(" ", "")` —
whose key is the one-byte string `" "` — serializes to `" \x20\n\n"`, and
parsing that yields the different record with header `("", " ")`: the
round-trip fails for keys containing SP, so it does not hold for every
record with arbitrary header pairs. -/
theorem c3_kvlm_roundtrip_fails_on_space_key :
    kvlmParse (kvlmSerialize ⟨[([32], [])], []⟩) = .ok ⟨[([], [32])], []⟩ ∧
    kvlmParse (kvlmSerialize ⟨[([32], [])], []⟩) ≠ .ok ⟨[([32], [])], []⟩ := by
  decide

/-! ## Tree payload parser (`src/git/tree.rs`, `GitTree::deserialize`)

A tree entry is `mode SP name NUL <20-byte sha>`. `mode` and `path` are
kept as the byte strings of the Rust `String`s (`from_utf8_lossy` is
modelled as the identity on bytes, faithful for valid-UTF-8 input). The
fuel argument is a termination device only: every iteration consumes at
least 22 bytes, so fuel `|data| + 1` is never exhausted. -/

structure GitTreeLeaf where
  mode : List Nat
  path : List Nat
  sha : List Nat
deriving DecidableEq, Repr

structure GitTree where
  entries : List GitTreeLeaf
deriving DecidableEq, Repr

def treeDeserializeF : Nat → List Nat → Except String (List GitTreeLeaf)
  | 0, _ => .error "fuel exhausted"
  | _ + 1, [] => .ok []
  | fuel + 1, d :: ds =>
      let data := d :: ds
      let mode := data.takeWhile (· ≠ 32)
      match data.dropWhile (· ≠ 32) with
      | [] => .error "Tree: expected space after mode"
      | _ :: r2 =>
          let name := r2.takeWhile (· ≠ 0)
          match r2.dropWhile (· ≠ 0) with
          | [] => .error "Tree: expected null after path"
          | _ :: r4 =>
              if r4.length < 20 then .error "Tree: incomplete SHA1"
              else
                match treeDeserializeF fuel (r4.drop 20) with
                | .ok entries => .ok (⟨mode, name, r4.take 20⟩ :: entries)
                | .error e => .error e

def treeDeserialize (data : List Nat) : Except String GitTree :=
  match treeDeserializeF (data.length + 1) data with
  | .ok entries => .ok ⟨entries⟩
  | .error e => .error e

/-! ## Object frame deserializer (`src/git/objects.rs`, `object_read`)

Models the parsing of a decompressed `<kind> SP <len> NUL <payload>`
frame: split at the first NUL, tokenize the header with
`split_whitespace` and take the first token, dispatch on it. The
whitespace set is the ASCII one (for non-ASCII header bytes
`from_utf8_lossy` could additionally map some multi-byte sequences to
Unicode whitespace; the theorems below only rely on ASCII headers).
Note the declared `<len>` is never inspected, and the `"tag"` arm of the
source is `Err("Tag object not yet implemented")`. -/

inductive GitObjectType
  | blob
  | commit
  | tree
  | tag
deriving DecidableEq, Repr

inductive ReadObj
  | blob (data : List Nat)
  | commit (kvlm : Kvlm)
  | tree (t : GitTree)
deriving DecidableEq, Repr

def isAsciiWs (b : Nat) : Bool :=
  b == 9 || b == 10 || b == 11 || b == 12 || b == 13 || b == 32

/-- First `split_whitespace` token of the header, `none` if there is
none (the `"missing type"` error case). -/
def firstToken (header : List Nat) : Option (List Nat) :=
  let t := (header.dropWhile isAsciiWs).takeWhile (fun b => !isAsciiWs b)
  if t.isEmpty then none else some t

def objectReadDispatch (header content : List Nat) : Except String (GitObjectType × ReadObj) :=
  match firstToken header with
  | none => .error "Invalid object header: missing type"
  | some tok =>
      if tok = [98, 108, 111, 98] then .ok (.blob, .blob content)
      else if tok = [99, 111, 109, 109, 105, 116] then
        match kvlmParse content with
        | .ok k => .ok (.commit, .commit k)
        | .error e => .error e
      else if tok = [116, 114, 101, 101] then
        match treeDeserialize content with
        | .ok t => .ok (.tree, .tree t)
        | .error e => .error e
      else if tok = [116, 97, 103] then .error "Tag object not yet implemented"
      else .error "Unknown object type"

def objectReadFrame (decompressed : List Nat) : Except String (GitObjectType × ReadObj) :=
  match findIdxOpt 0 decompressed with
  | none => .error "Invalid object format: missing header null byte"
  | some nullPos =>
      objectReadDispatch (decompressed.take nullPos) (decompressed.drop (nullPos + 1))

theorem findIdxOpt_eq_none_of_not_mem {b : Nat} {s : List Nat} (h : b ∉ s) :
    findIdxOpt b s = none := by
  induction s with
  | nil => rfl
  | cons c t ih =>
      have hc : c ≠ b := fun hc => h (hc ▸ List.mem_cons_self c t)
      rw [findIdxOpt_cons_ne _ hc, ih (fun hm => h (List.mem_cons_of_mem c hm))]
      rfl

theorem objectReadFrame_split (header payload : List Nat) (h : 0 ∉ header) :
    objectReadFrame (header ++ 0 :: payload) = objectReadDispatch header payload := by
  have hfind : findIdxOpt 0 (header ++ 0 :: payload) = some header.length := by
    rw [findIdxOpt_append_not_mem _ _ h, findIdxOpt_cons_self]
    simp
  rw [objectReadFrame, hfind]
  dsimp only
  have htake : (header ++ 0 :: payload).take header.length = header := List.take_left _ _
  have hdrop : (header ++ 0 :: payload).drop (header.length + 1) = payload := by
    have h1 : header ++ 0 :: payload = (header ++ [0]) ++ payload := by simp
    have h2 : header.length + 1 = (header ++ [0]).length := by simp
    rw [h1, h2, List.drop_left]
  rw [htake, hdrop]

theorem firstToken_blob (len : List Nat) :
    firstToken ([98, 108, 111, 98, 32] ++ len) = some [98, 108, 111, 98] := by
  simp [firstToken, List.dropWhile_cons, List.takeWhile_cons, isAsciiWs]

theorem firstToken_commit (len : List Nat) :
    firstToken ([99, 111, 109, 109, 105, 116, 32] ++ len) =
      some [99, 111, 109, 109, 105, 116] := by
  simp [firstToken, List.dropWhile_cons, List.takeWhile_cons, isAsciiWs]

theorem firstToken_tree (len : List Nat) :
    firstToken ([116, 114, 101, 101, 32] ++ len) = some [116, 114, 101, 101] := by
  simp [firstToken, List.dropWhile_cons, List.takeWhile_cons, isAsciiWs]

theorem firstToken_tag (len : List Nat) :
    firstToken ([116, 97, 103, 32] ++ len) = some [116, 97, 103] := by
  simp [firstToken, List.dropWhile_cons, List.takeWhile_cons, isAsciiWs]

set_option maxHeartbeats 1000000 in
/-- C5 (amended): for every stored object frame, read fails with a decode
error whenever the decompressed frame is missing the NUL separator or
its first header token is outside `blob|commit|tree`; the declared
`<len>` is never checked (an arbitrary NUL-free byte string may stand in
its place); a well-formed frame of kind `blob`, `commit` or `tree` is
accepted and dispatched on its kind, while a `tag` frame is rejected
with `"Tag object not yet implemented"`. -/
theorem c5_object_read_frame_amended :
    (∀ bs : List Nat, 0 ∉ bs →
      objectReadFrame bs = .error "Invalid object format: missing header null byte") ∧
    (∀ header payload tok : List Nat, 0 ∉ header → firstToken header = some tok →
      tok ≠ [98, 108, 111, 98] → tok ≠ [99, 111, 109, 109, 105, 116] →
      tok ≠ [116, 114, 101, 101] →
      ∃ msg, objectReadFrame (header ++ 0 :: payload) = .error msg) ∧
    (∀ len payload : List Nat, 0 ∉ len →
      objectReadFrame (([98, 108, 111, 98, 32] ++ len) ++ 0 :: payload) =
        .ok (.blob, .blob payload)) ∧
    (∀ len payload : List Nat, ∀ k : Kvlm, 0 ∉ len → kvlmParse payload = .ok k →
      objectReadFrame (([99, 111, 109, 109, 105, 116, 32] ++ len) ++ 0 :: payload) =
        .ok (.commit, .commit k)) ∧
    (∀ len payload : List Nat, ∀ t : GitTree, 0 ∉ len → treeDeserialize payload = .ok t →
      objectReadFrame (([116, 114, 101, 101, 32] ++ len) ++ 0 :: payload) =
        .ok (.tree, .tree t)) ∧
    (∀ len payload : List Nat, 0 ∉ len →
      objectReadFrame (([116, 97, 103, 32] ++ len) ++ 0 :: payload) =
        .error "Tag object not yet implemented") := by
  refine ⟨?_, ?_, ?_, ?_, ?_, ?_⟩
  · intro bs h
    unfold objectReadFrame
    rw [findIdxOpt_eq_none_of_not_mem h]
  · intro header payload tok h0 htok h1 h2 h3
    rw [objectReadFrame_split _ _ h0]
    unfold objectReadDispatch
    rw [htok]
    dsimp only
    rw [if_neg h1, if_neg h2, if_neg h3]
    refine ⟨if tok = [116, 97, 103] then "Tag object not yet implemented"
      else "Unknown object type", ?_⟩
    split <;> rfl
  · intro len payload h0
    rw [objectReadFrame_split _ _ (by simp [h0])]
    unfold objectReadDispatch
    rw [show ([98, 108, 111, 98, 32] ++ len : List Nat) = [98, 108, 111, 98, 32] ++ len from rfl,
      firstToken_blob]
    simp
  · intro len payload k h0 hk
    rw [objectReadFrame_split _ _ (by simp [h0])]
    unfold objectReadDispatch
    rw [firstToken_commit]
    simp [hk]
  · intro len payload t h0 ht
    rw [objectReadFrame_split _ _ (by simp [h0])]
    unfold objectReadDispatch
    rw [firstToken_tree]
    simp [ht]
  · intro len payload h0
    rw [objectReadFrame_split _ _ (by simp [h0])]
    unfold objectReadDispatch
    rw [firstToken_tag]
    simp

/-- C5 counterexample: the frame `"blob 999\u{0}hi"` declares payload
length 999 but carries the 2-byte payload `"hi"`; the claim says read
must fail on a length mismatch, yet it is accepted. Conversely the
well-formed frame `"tag 0\u{0}"` is one of the four kinds the claim says
must be accepted, yet it is rejected. -/
theorem c5_length_mismatch_accepted_tag_rejected :
    objectReadFrame [98, 108, 111, 98, 32, 57, 57, 57, 0, 104, 105] =
      .ok (.blob, .blob [104, 105]) ∧
    objectReadFrame [116, 97, 103, 32, 48, 0] =
      .error "Tag object not yet implemented" := by
  decide

theorem c5_object_read_frame_witness :
    objectReadFrame (([98, 108, 111, 98, 32] ++ [50]) ++ 0 :: [104, 105]) =
      .ok (.blob, .blob [104, 105]) :=
  c5_object_read_frame_amended.2.2.1 [50] [104, 105] (by decide)

/-! ## Tree builder (`src/git/tree.rs`, `build_tree`) and commit's
`write_tree` (`src/commands/commit.rs`)

Paths are the byte strings of the index entries; `splitComps` models
`PathBuf::components()` for normal relative paths (consecutive
separators and `"."` pieces are dropped; a leading `"."`, which Rust
keeps as `CurDir`, does not arise for the well-formed paths the theorems
quantify over). The SHA-1 of `object_write` is abstracted as a function
parameter `hashT` from the sorted entry list to the 40-hex-byte name —
none of the claimed properties depend on its value. `sortLeaves` is a
stable insertion sort; `Vec::sort_by` is a stable sort and a stable sort
is determined by the comparator (`a.path.cmp(&b.path)`, byte-wise
lexicographic on the UTF-8 bytes) together with stability, so the two
agree on every input. `sortedKeys` reproduces the iteration order of the
`BTreeMap` keyed by dirname (sorted unique keys; recall the grouped
values are never read by the source). Fuel is a termination device for
the recursion on prefixes. -/

def rawSplit : List Nat → List (List Nat)
  | [] => [[]]
  | b :: t =>
      if b = 47 then [] :: rawSplit t
      else
        match rawSplit t with
        | [] => [[b]]
        | h :: r => (b :: h) :: r

def splitComps (path : List Nat) : List (List Nat) :=
  (rawSplit path).filter fun c => !c.isEmpty && !(c == [46])

def stripPref (pfx comps : List (List Nat)) : Option (List (List Nat)) :=
  if pfx.isPrefixOf comps then some (comps.drop pfx.length) else none

/-- Byte-wise lexicographic comparison: `Ord` of Rust `String` (which
compares the UTF-8 bytes). -/
def listCmpBytes : List Nat → List Nat → Ordering
  | [], [] => .eq
  | [], _ :: _ => .lt
  | _ :: _, [] => .gt
  | a :: as, b :: bs => if a < b then .lt else if b < a then .gt else listCmpBytes as bs

def leafLt (a b : GitTreeLeaf) : Bool := decide (listCmpBytes a.path b.path = .lt)

def leafLe (a b : GitTreeLeaf) : Prop := listCmpBytes a.path b.path ≠ .gt

def insertLeaf (x : GitTreeLeaf) : List GitTreeLeaf → List GitTreeLeaf
  | [] => [x]
  | y :: ys => if leafLt x y then x :: y :: ys else y :: insertLeaf x ys

def sortLeaves (l : List GitTreeLeaf) : List GitTreeLeaf :=
  l.foldl (fun acc x => insertLeaf x acc) []

def insertSortedUnique (x : List Nat) : List (List Nat) → List (List Nat)
  | [] => [x]
  | y :: ys =>
      match listCmpBytes x y with
      | .lt => x :: y :: ys
      | .eq => y :: ys
      | .gt => y :: insertSortedUnique x ys

def sortedKeys (l : List (List Nat)) : List (List Nat) :=
  l.foldl (fun acc x => insertSortedUnique x acc) []

/-- `hex::decode` into a fixed 20-byte buffer: the decode error is
propagated with `?`, a decoded length other than 20 makes
`copy_from_slice` panic (modelled as an error). -/
def hexDecode20 (sha : List Nat) : Except String (List Nat) :=
  match hexDecode sha with
  | none => .error "Invalid SHA in index"
  | some bs => if bs.length = 20 then .ok bs else .error "copy_from_slice length mismatch"

/-- The per-entry scan of `build_tree`: skip entries whose path does not
extend the prefix; a one-component remainder becomes a `100644` file
leaf; otherwise the first remaining component is a dirname. An entry
whose path equals the prefix reaches `comps[0]` of an empty slice — a
panic in the source, modelled as an error. -/
def buildScan (pfx : List (List Nat)) : List GitIndexEntry →
    Except String (List GitTreeLeaf × List (List Nat))
  | [] => .ok ([], [])
  | e :: es =>
      match stripPref pfx (splitComps e.path) with
      | none => buildScan pfx es
      | some rel =>
          if rel.length = 1 then
            match hexDecode20 e.sha with
            | .error msg => .error msg
            | .ok shaBytes =>
                match buildScan pfx es with
                | .ok (fs, ds) =>
                    .ok (⟨[49, 48, 48, 54, 52, 52], rel.headD [], shaBytes⟩ :: fs, ds)
                | .error msg => .error msg
          else if rel.isEmpty then .error "panic: comps is empty"
          else
            match buildScan pfx es with
            | .ok (fs, ds) => .ok (fs, rel.headD [] :: ds)
            | .error msg => .error msg

/-- The subdirectory loop of `build_tree`, parameterized by the
recursive call (`recur p` builds the subtree for prefix `p` and returns
its hex sha together with all trees it wrote). -/
def buildDirsWith (recur : List (List Nat) → Except String (List Nat × List GitTree))
    (pfx : List (List Nat)) : List (List Nat) →
    Except String (List GitTreeLeaf × List GitTree)
  | [] => .ok ([], [])
  | d :: ds =>
      match recur (pfx ++ [d]) with
      | .error msg => .error msg
      | .ok (subSha, subTrees) =>
          match hexDecode20 subSha with
          | .error msg => .error msg
          | .ok shaBytes =>
              match buildDirsWith recur pfx ds with
              | .error msg => .error msg
              | .ok (leaves, trees) =>
                  .ok (⟨[52, 48, 48, 48, 48], d, shaBytes⟩ :: leaves, subTrees ++ trees)

/-- `build_tree`: returns the sha of the tree for `pfx` and the list of
every tree object written (subtrees first, then this tree), with the
entry list sorted by `a.path.cmp(&b.path)` before writing. -/
def buildTreeAux (hashT : List GitTreeLeaf → List Nat) :
    Nat → List (List Nat) → List GitIndexEntry →
    Except String (List Nat × List GitTree)
  | 0, _, _ => .error "fuel exhausted"
  | fuel + 1, pfx, entries =>
      match buildScan pfx entries with
      | .error msg => .error msg
      | .ok (files, dirnames) =>
          match buildDirsWith (fun p => buildTreeAux hashT fuel p entries) pfx
              (sortedKeys dirnames) with
          | .error msg => .error msg
          | .ok (dirLeaves, subTrees) =>
              let sorted := sortLeaves (files ++ dirLeaves)
              .ok (hashT sorted, subTrees ++ [⟨sorted⟩])

/-- `write_tree` of `src/commands/commit.rs`: a flat tree whose entries
copy each index entry's full path as the name, all with mode `100644`. -/
def writeTreeCommit (hashT : List GitTreeLeaf → List Nat)
    (entries : List GitIndexEntry) : Except String (List Nat × GitTree) :=
  match entries.mapM (fun e => (hexDecode20 e.sha).map
      (fun bs => (⟨[49, 48, 48, 54, 52, 52], e.path, bs⟩ : GitTreeLeaf))) with
  | .ok leaves => .ok (hashT leaves, ⟨leaves⟩)
  | .error msg => .error msg

theorem listCmpBytes_gt_iff_lt : ∀ (x y : List Nat),
    listCmpBytes x y = .gt ↔ listCmpBytes y x = .lt
  | [], [] => by simp [listCmpBytes]
  | [], _ :: _ => by simp [listCmpBytes]
  | _ :: _, [] => by simp [listCmpBytes]
  | a :: as, b :: bs => by
      simp only [listCmpBytes]
      rcases Nat.lt_trichotomy a b with h | h | h
      · rw [if_pos h, if_neg (by omega), if_pos h]
        simp
      · rw [if_neg (by omega), if_neg (by omega), if_neg (by omega), if_neg (by omega)]
        exact listCmpBytes_gt_iff_lt as bs
      · rw [if_neg (by omega), if_pos h, if_pos h]
        simp

theorem leafLe_of_lt {x y : GitTreeLeaf} (h : leafLt x y = true) : leafLe x y := by
  unfold leafLt at h
  unfold leafLe
  rw [of_decide_eq_true h]
  simp

theorem leafLe_of_not_lt {x y : GitTreeLeaf} (h : leafLt x y = false) : leafLe y x := by
  unfold leafLt at h
  unfold leafLe
  intro hgt
  exact of_decide_eq_false h ((listCmpBytes_gt_iff_lt _ _).mp hgt)

theorem chain'_insertLeaf (x : GitTreeLeaf) : ∀ (l : List GitTreeLeaf),
    List.Chain' leafLe l → List.Chain' leafLe (insertLeaf x l)
  | [], _ => List.chain'_singleton x
  | y :: ys, h => by
      unfold insertLeaf
      cases hxy : leafLt x y with
      | true =>
          rw [if_pos rfl]
          exact List.chain'_cons.mpr ⟨leafLe_of_lt hxy, h⟩
      | false =>
          rw [if_neg (by simp)]
          have hys : List.Chain' leafLe ys := h.tail
          have hins := chain'_insertLeaf x ys hys
          cases ys with
          | nil =>
              unfold insertLeaf at hins ⊢
              exact List.chain'_cons.mpr ⟨leafLe_of_not_lt hxy, List.chain'_singleton x⟩
          | cons z zs =>
              unfold insertLeaf at hins ⊢
              cases hxz : leafLt x z with
              | true =>
                  rw [if_pos hxz] at hins
                  rw [if_pos rfl]
                  exact List.chain'_cons.mpr ⟨leafLe_of_not_lt hxy, hins⟩
              | false =>
                  rw [if_neg (by simp [hxz])] at hins
                  rw [if_neg (by simp)]
                  exact List.chain'_cons.mpr ⟨(List.chain'_cons.mp h).1, hins⟩

theorem sortLeaves_sorted (l : List GitTreeLeaf) : List.Chain' leafLe (sortLeaves l) := by
  unfold sortLeaves
  suffices h : ∀ acc, List.Chain' leafLe acc →
      List.Chain' leafLe (List.foldl (fun acc x => insertLeaf x acc) acc l) from
    h [] (by simp)
  induction l with
  | nil => intro acc h; simpa using h
  | cons x xs ih =>
      intro acc h
      simp only [List.foldl_cons]
      exact ih _ (chain'_insertLeaf x acc h)

theorem mem_insertLeaf {a x : GitTreeLeaf} : ∀ {l : List GitTreeLeaf},
    a ∈ insertLeaf x l → a = x ∨ a ∈ l := by
  intro l
  induction l with
  | nil => intro h; simp [insertLeaf] at h; exact Or.inl h
  | cons y ys ih =>
      intro h
      unfold insertLeaf at h
      cases hxy : leafLt x y with
      | true =>
          rw [if_pos hxy] at h
          rcases List.mem_cons.mp h with h | h
          · exact Or.inl h
          · exact Or.inr h
      | false =>
          rw [if_neg (by simp [hxy])] at h
          rcases List.mem_cons.mp h with h | h
          · exact Or.inr (h ▸ List.mem_cons_self y ys)
          · rcases ih h with h | h
            · exact Or.inl h
            · exact Or.inr (List.mem_cons_of_mem y h)

theorem mem_sortLeaves {a : GitTreeLeaf} {l : List GitTreeLeaf}
    (h : a ∈ sortLeaves l) : a ∈ l := by
  unfold sortLeaves at h
  suffices hgen : ∀ acc, a ∈ List.foldl (fun acc x => insertLeaf x acc) acc l →
      a ∈ acc ∨ a ∈ l from
    (hgen [] h).resolve_left (by simp)
  clear h
  induction l with
  | nil => intro acc h; exact Or.inl (by simpa using h)
  | cons x xs ih =>
      intro acc h
      simp only [List.foldl_cons] at h
      rcases ih _ h with h | h
      · rcases mem_insertLeaf h with h | h
        · exact Or.inr (h ▸ List.mem_cons_self x xs)
        · exact Or.inl h
      · exact Or.inr (List.mem_cons_of_mem x h)

theorem mem_insertSortedUnique {a x : List Nat} : ∀ {l : List (List Nat)},
    a ∈ insertSortedUnique x l → a = x ∨ a ∈ l := by
  intro l
  induction l with
  | nil => intro h; simp [insertSortedUnique] at h; exact Or.inl h
  | cons y ys ih =>
      intro h
      unfold insertSortedUnique at h
      cases hxy : listCmpBytes x y with
      | lt =>
          rw [hxy] at h
          rcases List.mem_cons.mp h with h | h
          · exact Or.inl h
          · exact Or.inr h
      | eq =>
          rw [hxy] at h
          exact Or.inr h
      | gt =>
          rw [hxy] at h
          rcases List.mem_cons.mp h with h | h
          · exact Or.inr (h ▸ List.mem_cons_self y ys)
          · rcases ih h with h | h
            · exact Or.inl h
            · exact Or.inr (List.mem_cons_of_mem y h)

theorem mem_sortedKeys {a : List Nat} {l : List (List Nat)}
    (h : a ∈ sortedKeys l) : a ∈ l := by
  unfold sortedKeys at h
  suffices hgen : ∀ acc, a ∈ List.foldl (fun acc x => insertSortedUnique x acc) acc l →
      a ∈ acc ∨ a ∈ l from
    (hgen [] h).resolve_left (by simp)
  clear h
  induction l with
  | nil => intro acc h; exact Or.inl (by simpa using h)
  | cons x xs ih =>
      intro acc h
      simp only [List.foldl_cons] at h
      rcases ih _ h with h | h
      · rcases mem_insertSortedUnique h with h | h
        · exact Or.inr (h ▸ List.mem_cons_self x xs)
        · exact Or.inl h
      · exact Or.inr (List.mem_cons_of_mem x h)

theorem rawSplit_pieces : ∀ (bs : List Nat), ∀ p ∈ rawSplit bs,
    47 ∉ p ∧ ∀ x ∈ p, x ∈ bs := by
  intro bs
  induction bs with
  | nil =>
      intro p hp
      simp [rawSplit] at hp
      subst hp
      simp
  | cons b t ih =>
      intro p hp
      unfold rawSplit at hp
      by_cases hb : b = 47
      · rw [if_pos hb] at hp
        rcases List.mem_cons.mp hp with h | h
        · subst h; simp
        · obtain ⟨h1, h2⟩ := ih p h
          exact ⟨h1, fun x hx => List.mem_cons_of_mem b (h2 x hx)⟩
      · rw [if_neg hb] at hp
        cases hr : rawSplit t with
        | nil =>
            rw [hr] at hp
            simp at hp
            subst hp
            refine ⟨?_, ?_⟩
            · intro hmem
              exact hb (List.mem_singleton.mp hmem).symm
            · intro x hx
              simp at hx
              simp [hx]
        | cons h r =>
            rw [hr] at hp
            rcases List.mem_cons.mp hp with hph | hpr
            · subst hph
              obtain ⟨h1, h2⟩ := ih h (hr ▸ List.mem_cons_self h r)
              refine ⟨?_, ?_⟩
              · intro hmem
                rcases List.mem_cons.mp hmem with hx | hx
                · exact hb hx.symm
                · exact h1 hx
              · intro x hx
                rcases List.mem_cons.mp hx with hx | hx
                · exact hx ▸ List.mem_cons_self b t
                · exact List.mem_cons_of_mem b (h2 x hx)
            · obtain ⟨h1, h2⟩ := ih p (hr ▸ List.mem_cons_of_mem h hpr)
              exact ⟨h1, fun x hx => List.mem_cons_of_mem b (h2 x hx)⟩

theorem splitComps_pieces (path : List Nat) (h0 : 0 ∉ path) :
    ∀ c ∈ splitComps path, 47 ∉ c ∧ 0 ∉ c := by
  intro c hc
  unfold splitComps at hc
  have hmem := List.mem_of_mem_filter hc
  obtain ⟨h1, h2⟩ := rawSplit_pieces path c hmem
  exact ⟨h1, fun hx => h0 (h2 0 hx)⟩

theorem stripPref_eq_drop {pfx comps rel : List (List Nat)}
    (h : stripPref pfx comps = some rel) : rel = comps.drop pfx.length := by
  unfold stripPref at h
  by_cases hpre : pfx.isPrefixOf comps
  · rw [if_pos hpre] at h
    exact (Option.some.inj h).symm
  · rw [if_neg hpre] at h
    cases h

theorem buildScan_names (pfx : List (List Nat)) :
    ∀ (entries : List GitIndexEntry), (∀ e ∈ entries, 0 ∉ e.path) →
    ∀ files dirnames, buildScan pfx entries = .ok (files, dirnames) →
      (∀ f ∈ files, 47 ∉ f.path ∧ 0 ∉ f.path) ∧ (∀ d ∈ dirnames, 47 ∉ d ∧ 0 ∉ d) := by
  intro entries
  induction entries with
  | nil =>
      intro _ files dirnames h
      simp only [buildScan, Except.ok.injEq, Prod.mk.injEq] at h
      obtain ⟨hf, hd⟩ := h
      subst hf
      subst hd
      exact ⟨fun f hf => absurd hf (List.not_mem_nil f), fun d hd => absurd hd (List.not_mem_nil d)⟩
  | cons e es ih =>
      intro h0 files dirnames h
      have h0es : ∀ e' ∈ es, 0 ∉ e'.path := fun e' he' => h0 e' (List.mem_cons_of_mem _ he')
      have h0e : 0 ∉ e.path := h0 e (List.mem_cons_self _ _)
      unfold buildScan at h
      cases hsp : stripPref pfx (splitComps e.path) with
      | none =>
          rw [hsp] at h
          exact ih h0es files dirnames h
      | some rel =>
          rw [hsp] at h
          dsimp only at h
          have hreldrop : rel = (splitComps e.path).drop pfx.length := stripPref_eq_drop hsp
          have hheadmem : ∀ c rest, rel = c :: rest → 47 ∉ c ∧ 0 ∉ c := by
            intro c rest hrelc
            have hcmem : c ∈ splitComps e.path := by
              apply List.mem_of_mem_drop (n := pfx.length)
              rw [← hreldrop, hrelc]
              exact List.mem_cons_self c rest
            exact splitComps_pieces e.path h0e c hcmem
          by_cases hlen : rel.length = 1
          · rw [if_pos hlen] at h
            cases hhex : hexDecode20 e.sha with
            | error msg => rw [hhex] at h; cases h
            | ok shaBytes =>
                rw [hhex] at h
                cases hrec : buildScan pfx es with
                | error msg => rw [hrec] at h; cases h
                | ok pr =>
                    obtain ⟨fs, ds⟩ := pr
                    rw [hrec] at h
                    simp only [Except.ok.injEq, Prod.mk.injEq] at h
                    obtain ⟨hf, hd⟩ := h
                    subst hf
                    subst hd
                    obtain ⟨hfs, hds⟩ := ih h0es fs ds hrec
                    refine ⟨?_, hds⟩
                    intro f hf'
                    rcases List.mem_cons.mp hf' with hf' | hf'
                    · subst hf'
                      cases hrelc : rel with
                      | nil => rw [hrelc] at hlen; simp at hlen
                      | cons c rest =>
                          have := hheadmem c rest hrelc
                          simpa [hrelc] using this
                    · exact hfs f hf'
          · rw [if_neg hlen] at h
            by_cases hempty : rel.isEmpty
            · rw [if_pos hempty] at h
              cases h
            · rw [if_neg hempty] at h
              cases hrec : buildScan pfx es with
              | error msg => rw [hrec] at h; cases h
              | ok pr =>
                  obtain ⟨fs, ds⟩ := pr
                  rw [hrec] at h
                  simp only [Except.ok.injEq, Prod.mk.injEq] at h
                  obtain ⟨hf, hd⟩ := h
                  subst hf
                  subst hd
                  obtain ⟨hfs, hds⟩ := ih h0es fs ds hrec
                  refine ⟨hfs, ?_⟩
                  intro d hd'
                  rcases List.mem_cons.mp hd' with hd' | hd'
                  · subst hd'
                    cases hrelc : rel with
                    | nil => rw [hrelc] at hempty; simp at hempty
                    | cons c rest =>
                        have := hheadmem c rest hrelc
                        simpa [hrelc] using this
                  · exact hds d hd'

theorem buildDirsWith_trees (recur : List (List Nat) → Except String (List Nat × List GitTree))
    (P : GitTree → Prop)
    (hrec : ∀ p sha trees, recur p = .ok (sha, trees) → ∀ t ∈ trees, P t) :
    ∀ (pfx : List (List Nat)) (ds : List (List Nat)) leaves trees,
      buildDirsWith recur pfx ds = .ok (leaves, trees) →
      (∀ leaf ∈ leaves, leaf.mode = [52, 48, 48, 48, 48] ∧ leaf.path ∈ ds) ∧
      (∀ t ∈ trees, P t) := by
  intro pfx ds
  induction ds with
  | nil =>
      intro leaves trees h
      simp only [buildDirsWith, Except.ok.injEq, Prod.mk.injEq] at h
      obtain ⟨hl, ht⟩ := h
      subst hl
      subst ht
      exact ⟨fun l hl => absurd hl (List.not_mem_nil l), fun t ht => absurd ht (List.not_mem_nil t)⟩
  | cons d dtail ih =>
      intro leaves trees h
      unfold buildDirsWith at h
      cases hr : recur (pfx ++ [d]) with
      | error msg => rw [hr] at h; cases h
      | ok pr =>
          obtain ⟨subSha, subTrees⟩ := pr
          rw [hr] at h
          dsimp only at h
          cases hhex : hexDecode20 subSha with
          | error msg => rw [hhex] at h; cases h
          | ok shaBytes =>
              rw [hhex] at h
              cases hrest : buildDirsWith recur pfx dtail with
              | error msg => rw [hrest] at h; cases h
              | ok pr2 =>
                  obtain ⟨ls, ts⟩ := pr2
                  rw [hrest] at h
                  simp only [Except.ok.injEq, Prod.mk.injEq] at h
                  obtain ⟨hl, ht⟩ := h
                  subst hl
                  subst ht
                  obtain ⟨hls, hts⟩ := ih ls ts hrest
                  constructor
                  · intro leaf hleaf
                    rcases List.mem_cons.mp hleaf with hleaf | hleaf
                    · subst hleaf
                      exact ⟨rfl, List.mem_cons_self d dtail⟩
                    · obtain ⟨hm, hp⟩ := hls leaf hleaf
                      exact ⟨hm, List.mem_cons_of_mem d hp⟩
                  · intro t htmem
                    rcases List.mem_append.mp htmem with htmem | htmem
                    · exact hrec _ _ _ hr t htmem
                    · exact hts t htmem

/-- C8 (amended): every tree object the recursive tree builder
(`build_tree`) writes — at any fuel, prefix, and hash function — has
entries whose names contain no `/` (byte 47) and no NUL byte, provided
the index paths contain no NUL byte. (Trees written by commit's flat
`write_tree` copy full index paths into entry names and are excluded;
see the counterexample.) -/
theorem c8_build_tree_names_amended (hashT : List GitTreeLeaf → List Nat) :
    ∀ (fuel : Nat) (pfx : List (List Nat)) (entries : List GitIndexEntry),
      (∀ e ∈ entries, 0 ∉ e.path) →
      ∀ sha trees, buildTreeAux hashT fuel pfx entries = .ok (sha, trees) →
      ∀ t ∈ trees, ∀ leaf ∈ t.entries, 47 ∉ leaf.path ∧ 0 ∉ leaf.path := by
  intro fuel
  induction fuel with
  | zero => intro pfx entries _ sha trees h; cases h
  | succ f ih =>
      intro pfx entries h0 sha trees h
      unfold buildTreeAux at h
      cases hscan : buildScan pfx entries with
      | error msg => rw [hscan] at h; cases h
      | ok pr =>
          obtain ⟨files, dirnames⟩ := pr
          rw [hscan] at h
          dsimp only at h
          cases hdirs : buildDirsWith (fun p => buildTreeAux hashT f p entries) pfx
              (sortedKeys dirnames) with
          | error msg => rw [hdirs] at h; cases h
          | ok pr2 =>
              obtain ⟨dirLeaves, subTrees⟩ := pr2
              rw [hdirs] at h
              simp only [Except.ok.injEq, Prod.mk.injEq] at h
              obtain ⟨hsha, htrees⟩ := h
              subst htrees
              obtain ⟨hfiles, hdirnames⟩ := buildScan_names pfx entries h0 files dirnames hscan
              obtain ⟨hdl, hsub⟩ := buildDirsWith_trees _
                (fun t => ∀ leaf ∈ t.entries, 47 ∉ leaf.path ∧ 0 ∉ leaf.path)
                (fun p sha trees hr t htmem => ih p entries h0 sha trees hr t htmem)
                pfx (sortedKeys dirnames) dirLeaves subTrees hdirs
              intro t htmem
              rcases List.mem_append.mp htmem with htmem | htmem
              · exact hsub t htmem
              · intro leaf hleaf
                have ht : t = ⟨sortLeaves (files ++ dirLeaves)⟩ := by
                  simpa using htmem
                subst ht
                have hleaf2 : leaf ∈ files ++ dirLeaves := mem_sortLeaves hleaf
                rcases List.mem_append.mp hleaf2 with hm | hm
                · exact hfiles leaf hm
                · obtain ⟨_, hp⟩ := hdl leaf hm
                  exact hdirnames leaf.path (mem_sortedKeys hp)

/-- C4 (amended): every tree object `build_tree` writes has its entries
sorted by the raw byte-wise path comparison `a.path.cmp(&b.path)` — not
by the directory-aware convention (see the counterexample). -/
theorem c4_build_tree_sorted_amended (hashT : List GitTreeLeaf → List Nat) :
    ∀ (fuel : Nat) (pfx : List (List Nat)) (entries : List GitIndexEntry)
      (sha : List Nat) (trees : List GitTree),
      buildTreeAux hashT fuel pfx entries = .ok (sha, trees) →
      ∀ t ∈ trees, List.Chain' leafLe t.entries := by
  intro fuel
  induction fuel with
  | zero => intro pfx entries sha trees h; cases h
  | succ f ih =>
      intro pfx entries sha trees h
      unfold buildTreeAux at h
      cases hscan : buildScan pfx entries with
      | error msg => rw [hscan] at h; cases h
      | ok pr =>
          obtain ⟨files, dirnames⟩ := pr
          rw [hscan] at h
          dsimp only at h
          cases hdirs : buildDirsWith (fun p => buildTreeAux hashT f p entries) pfx
              (sortedKeys dirnames) with
          | error msg => rw [hdirs] at h; cases h
          | ok pr2 =>
              obtain ⟨dirLeaves, subTrees⟩ := pr2
              rw [hdirs] at h
              simp only [Except.ok.injEq, Prod.mk.injEq] at h
              obtain ⟨hsha, htrees⟩ := h
              subst htrees
              obtain ⟨_, hsub⟩ := buildDirsWith_trees _
                (fun t => List.Chain' leafLe t.entries)
                (fun p sha trees hr => ih p entries sha trees hr)
                pfx (sortedKeys dirnames) dirLeaves subTrees hdirs
              intro t htmem
              rcases List.mem_append.mp htmem with htmem | htmem
              · exact hsub t htmem
              · have ht : t = ⟨sortLeaves (files ++ dirLeaves)⟩ := by
                  simpa using htmem
                subst ht
                exact sortLeaves_sorted (files ++ dirLeaves)

/-- Modelled from the spec (§4.1): the directory-aware comparison key —
a directory entry (mode `40000`) compares as if its name ended in `/`.
Used only to state the original C4 claim against the code. -/
def dirAwareKey (leaf : GitTreeLeaf) : List Nat :=
  leaf.path ++ (if leaf.mode = [52, 48, 48, 48, 48] then [47] else [])

/-- Modelled from the spec (§4.1): entries sorted by the directory-aware
convention (adjacent pairs non-decreasing on `dirAwareKey`). -/
def dirAwareSortedB : List GitTreeLeaf → Bool
  | [] => true
  | [_] => true
  | a :: b :: t =>
      !(listCmpBytes (dirAwareKey a) (dirAwareKey b) == .gt) && dirAwareSortedB (b :: t)

/-- Index `["a.b" (file), "a/x" (file)]` with all-zero stat fields and
all-zero SHAs. -/
def c4Entry1 : GitIndexEntry :=
  ⟨0, 0, 0, 0, 0, 0, 0, 0, List.replicate 40 48, 0, [97, 46, 98]⟩

def c4Entry2 : GitIndexEntry :=
  ⟨0, 0, 0, 0, 0, 0, 0, 0, List.replicate 40 48, 0, [97, 47, 120]⟩

/-- A stand-in for `object_write`'s SHA-1 (its value is irrelevant to
ordering and naming): every tree hashes to 40 `'0'` characters. -/
def constHash : List GitTreeLeaf → List Nat := fun _ => List.replicate 40 48

/-- C4 counterexample: on the index `["a.b", "a/x"]` the builder writes
two trees; the root tree's entries are `[dir "a", file "a.b"]` — raw
byte order, since `"a" < "a.b"` — but the directory-aware order of §4.1
requires `"a.b" < "a/"` (`'.'` = 46 < `'/'` = 47), so the root tree is
not sorted by the claimed convention. -/
theorem c4_root_tree_not_directory_aware :
    buildTreeAux constHash 3 [] [c4Entry1, c4Entry2] =
      .ok (List.replicate 40 48,
        [⟨[⟨[49, 48, 48, 54, 52, 52], [120], List.replicate 20 0⟩]⟩,
         ⟨[⟨[52, 48, 48, 48, 48], [97], List.replicate 20 0⟩,
           ⟨[49, 48, 48, 54, 52, 52], [97, 46, 98], List.replicate 20 0⟩]⟩]) ∧
    dirAwareSortedB [⟨[52, 48, 48, 48, 48], [97], List.replicate 20 0⟩,
           ⟨[49, 48, 48, 54, 52, 52], [97, 46, 98], List.replicate 20 0⟩] = false := by
  decide

theorem c4_build_tree_sorted_witness :
    List.Chain' leafLe [⟨[52, 48, 48, 48, 48], [97], List.replicate 20 0⟩,
      ⟨[49, 48, 48, 54, 52, 52], [97, 46, 98], List.replicate 20 0⟩] :=
  c4_build_tree_sorted_amended constHash 3 [] [c4Entry1, c4Entry2]
    (List.replicate 40 48)
    [⟨[⟨[49, 48, 48, 54, 52, 52], [120], List.replicate 20 0⟩]⟩,
     ⟨[⟨[52, 48, 48, 48, 48], [97], List.replicate 20 0⟩,
       ⟨[49, 48, 48, 54, 52, 52], [97, 46, 98], List.replicate 20 0⟩]⟩]
    (by decide)
    ⟨[⟨[52, 48, 48, 48, 48], [97], List.replicate 20 0⟩,
      ⟨[49, 48, 48, 54, 52, 52], [97, 46, 98], List.replicate 20 0⟩]⟩ (by decide)

/-- C8 counterexample: commit's `write_tree` on an index containing the
path `"b/c"` writes a tree whose single entry name is the full path
`"b/c"`, which contains `/` (byte 47) — so not every tree the program
writes has slash-free entry names. -/
theorem c8_commit_write_tree_slash_name :
    writeTreeCommit constHash
      [⟨0, 0, 0, 0, 0, 0, 0, 0, List.replicate 40 48, 0, [98, 47, 99]⟩] =
      .ok (List.replicate 40 48,
        ⟨[⟨[49, 48, 48, 54, 52, 52], [98, 47, 99], List.replicate 20 0⟩]⟩) ∧
    (47 ∈ ([98, 47, 99] : List Nat)) := by
  decide

theorem c8_build_tree_names_witness :
    47 ∉ ([97, 46, 98] : List Nat) ∧ 0 ∉ ([97, 46, 98] : List Nat) :=
  c8_build_tree_names_amended constHash 3 [] [c4Entry1, c4Entry2]
    (by decide) (List.replicate 40 48)
    [⟨[⟨[49, 48, 48, 54, 52, 52], [120], List.replicate 20 0⟩]⟩,
     ⟨[⟨[52, 48, 48, 48, 48], [97], List.replicate 20 0⟩,
       ⟨[49, 48, 48, 54, 52, 52], [97, 46, 98], List.replicate 20 0⟩]⟩]
    (by decide)
    ⟨[⟨[52, 48, 48, 48, 48], [97], List.replicate 20 0⟩,
      ⟨[49, 48, 48, 54, 52, 52], [97, 46, 98], List.replicate 20 0⟩]⟩ (by decide)
    ⟨[49, 48, 48, 54, 52, 52], [97, 46, 98], List.replicate 20 0⟩ (by decide)

/-! ## Name resolution (`src/git/objects.rs` `object_resolve`,
`src/git/refs.rs` `ref_parse`, `resolve_sha`, `resolve_ref`)

The filesystem under the gitdir is abstracted as `FsModel` (file
contents, existence, directory listing keyed by gitdir-relative slash
paths). `trim` is modelled over the ASCII whitespace characters (Rust
trims Unicode whitespace; the contents in play are ASCII). String
slicing `data[5..]` is by bytes in Rust and by chars here — identical on
the ASCII prefix `"ref: "`. `name.len()` is the byte length in Rust and
the char count here — identical whenever the all-hexdigit guard can
succeed. -/

structure FsModel where
  readToString : String → Option String
  pathExists : String → Bool
  listDir : String → Option (List String)

def isWsChar (c : Char) : Bool := c = ' ' || c = '\t' || c = '\n' || c = '\r'

def rustTrim (s : String) : String :=
  String.mk (((s.data.dropWhile isWsChar).reverse.dropWhile isWsChar).reverse)

def strStartsWith (s pre : String) : Bool := pre.data.isPrefixOf s.data

def isAsciiHexdigit (c : Char) : Bool :=
  (decide ('0' ≤ c) && decide (c ≤ '9')) || (decide ('a' ≤ c) && decide (c ≤ 'f')) ||
  (decide ('A' ≤ c) && decide (c ≤ 'F'))

def pjoin (a b : String) : String := a ++ "/" ++ b

/-- `fs::read_to_string(path)?.trim().to_string()`. -/
def readTrim (fs : FsModel) (path : String) : Except String String :=
  match fs.readToString path with
  | some s => .ok (rustTrim s)
  | none => .error ("Failed to read " ++ path)

/-- `resolve_ref` (refs.rs:76): resolve `refname` under the gitdir. -/
def resolve_refM (fs : FsModel) (refname : String) : Except String String :=
  if fs.pathExists refname then readTrim fs refname
  else .error ("Invalid ref: " ++ refname)

/-- `resolve_sha` (refs.rs:47): a 40-character name is returned as-is
without any existence check; shorter names are expanded by scanning
`objects/<short[0..2]>/`. -/
def resolve_shaM (fs : FsModel) (short : String) : Except String String :=
  if short.length = 40 then .ok short
  else
    let pre := String.mk (short.data.take 2)
    let dir := pjoin "objects" pre
    if fs.pathExists dir then
      match fs.listDir dir with
      | none => .error "io error"
      | some names =>
          match names.filterMap (fun nm =>
              if strStartsWith (pre ++ nm) short then some (pre ++ nm) else none) with
          | [] => .error ("No objects found for prefix " ++ short)
          | [m] => .ok m
          | _ => .error ("Ambiguous prefix " ++ short)
    else .error ("No objects found for prefix " ++ short)

/-- `object_resolve` (objects.rs:118): the resolver the commands use.
Its `HEAD` branch checks the literal `"ref: "`. -/
def object_resolveM (fs : FsModel) (name : String) : Except String String :=
  if name.data.all isAsciiHexdigit && decide (4 ≤ name.length) && decide (name.length ≤ 40) then
    resolve_shaM fs name
  else if name = "HEAD" then
    match fs.readToString "HEAD" with
    | none => .error "Failed to read HEAD"
    | some data =>
        if strStartsWith data "ref: " then
          resolve_refM fs (rustTrim (String.mk (data.data.drop 5)))
        else .ok (rustTrim data)
  else if fs.pathExists name then readTrim fs name
  else if fs.pathExists (pjoin "refs/heads" name) then readTrim fs (pjoin "refs/heads" name)
  else if fs.pathExists (pjoin "refs/tags" name) then readTrim fs (pjoin "refs/tags" name)
  else if fs.pathExists (pjoin "refs/remotes" name) then readTrim fs (pjoin "refs/remotes" name)
  else .error ("Not a valid object name: " ++ name)

/-- `ref_parse` (refs.rs:8): identical to `object_resolve` except that
its `HEAD` branch tests `data.starts_with("red: ")` — the literal is
`"red: "`, not `"ref: "`. -/
def ref_parseM (fs : FsModel) (name : String) : Except String String :=
  if name.data.all isAsciiHexdigit && decide (4 ≤ name.length) && decide (name.length ≤ 40) then
    resolve_shaM fs name
  else if name = "HEAD" then
    match fs.readToString "HEAD" with
    | none => .error "Failed to read HEAD"
    | some data =>
        if strStartsWith data "red: " then
          resolve_refM fs (rustTrim (String.mk (data.data.drop 5)))
        else .ok (rustTrim data)
  else if fs.pathExists name then readTrim fs name
  else if fs.pathExists (pjoin "refs/heads" name) then readTrim fs (pjoin "refs/heads" name)
  else if fs.pathExists (pjoin "refs/tags" name) then readTrim fs (pjoin "refs/tags" name)
  else if fs.pathExists (pjoin "refs/remotes" name) then readTrim fs (pjoin "refs/remotes" name)
  else .error ("Not a valid object name: " ++ name)

/-- C9: for every filesystem state and every name of exactly 40
hexadecimal characters, `object_resolve` returns the name unchanged —
no object lookup happens, so resolution of a 40-hex name never fails,
even when no such object exists. -/
theorem c9_forty_hex_resolves_to_itself (fs : FsModel) (name : String)
    (hhex : name.data.all isAsciiHexdigit = true) (hlen : name.length = 40) :
    object_resolveM fs name = .ok name := by
  unfold object_resolveM
  rw [if_pos (by rw [hhex, hlen]; decide)]
  unfold resolve_shaM
  rw [if_pos hlen]

def emptyFs : FsModel := ⟨fun _ => none, fun _ => false, fun _ => none⟩

theorem c9_forty_hex_witness :
    object_resolveM emptyFs "aaaaaaaaaaaaaaaaaaaaaaaaaaaaaaaaaaaaaaaa" =
      .ok "aaaaaaaaaaaaaaaaaaaaaaaaaaaaaaaaaaaaaaaa" :=
  c9_forty_hex_resolves_to_itself emptyFs _ (by decide) (by decide)

/-- A gitdir whose `HEAD` is the symbolic ref
`"ref: refs/heads/master\n"` and whose `refs/heads/master` stores a
40-hex hash. -/
def c6Fs : FsModel :=
  ⟨fun p => if p = "HEAD" then some "ref: refs/heads/master\n"
    else if p = "refs/heads/master" then
      some "1111111111111111111111111111111111111111\n"
    else none,
   fun p => p == "refs/heads/master",
   fun _ => none⟩

/-- C6 bug evidence: on a symbolic `HEAD`, `ref_parse` tests the literal
`"red: "` (a typo for `"ref: "`, refs.rs:19), so it falls into the else
branch and returns the trimmed literal `"ref: refs/heads/master"`
instead of resolving the ref — contradicting its own doc comment
("Resolve a name ... to a full 40-hex SHA1"). The twin resolver
`object_resolve`, which the commands actually call, behaves as the claim
states and returns the stored hash. -/
theorem c6_ref_parse_red_typo :
    ref_parseM c6Fs "HEAD" = .ok "ref: refs/heads/master" ∧
    object_resolveM c6Fs "HEAD" = .ok "1111111111111111111111111111111111111111" := by
  constructor <;> decide

/-! ## Checkout (`src/commands/checkout.rs` `run`) and rm
(`src/commands/rm.rs` `rm`) -/

/-- The gitdir name fixed by `GitRepository::new` (repo.rs:22):
`worktree.join(".git")`. -/
def gitdirName : String := ".git"

/-- The worktree entries `checkout::run` deletes (lines 76-89): every
entry except one named `".rust-git"`. -/
def checkoutRemoveNames (listing : List String) : List String :=
  listing.filter (fun nm => !(nm == ".rust-git"))

/-- The two kind checks `checkout::run` performs before the deletion
loop: `object_find(&repo, commit, Some(Blob))` requires the object to be
a blob (line 61), then line 64 requires it to be a commit. -/
def checkoutKindGate (t : GitObjectType) : Except String Unit :=
  if t ≠ GitObjectType.blob then .error "Object is not of expected type blob"
  else if t ≠ GitObjectType.commit then .error "Object is not a commit"
  else .ok ()

/-- C1 bug evidence: the deletion loop's skip guard names `".rust-git"`
while the gitdir is named `".git"`, so the loop deletes the gitdir (and
everything inside it); moreover the expected-kind gate is contradictory
(blob required, then commit required), so every checkout errors before
materializing anything. -/
theorem c1_checkout_removes_gitdir :
    gitdirName = ".git" ∧
    checkoutRemoveNames [".git", "a.txt", ".rust-git"] = [".git", "a.txt"] ∧
    gitdirName ∈ checkoutRemoveNames [gitdirName, "a.txt"] ∧
    (checkoutKindGate .blob).isOk = false ∧
    (checkoutKindGate .commit).isOk = false ∧
    (checkoutKindGate .tree).isOk = false ∧
    (checkoutKindGate .tag).isOk = false := by
  decide

/-- A path component: `RootDir` or a named component (name bytes). -/
inductive PComp
  | root
  | name (s : List Nat)
deriving DecidableEq, Repr

/-- The entry partition of `rm` (rm.rs:36-43): an index entry is removed
when `worktree.join(&e.path)` — an absolute path — occurs in `relpaths`,
the list of worktree-relative stripped paths. Returns
`(kept_entries, remove_files)` in entry order. -/
def rmPartition (worktree : List PComp) (relpaths : List (List PComp)) :
    List GitIndexEntry → List GitIndexEntry × List (List PComp)
  | [] => ([], [])
  | e :: es =>
      let (kept, removeFiles) := rmPartition worktree relpaths es
      let full := worktree ++ (splitComps e.path).map PComp.name
      if full ∈ relpaths then (kept, full :: removeFiles)
      else (e :: kept, removeFiles)

/-- `rm` (rm.rs:16-63) on already-canonical absolute input paths
(`canonicalize` modelled as the identity on canonical paths): check each
path is inside the worktree and strip the worktree prefix; partition the
index; fail unless every requested path was matched (or `skip_missing`);
return the rewritten index and the files deleted when `delete` is set. -/
def rmModel (worktree : List PComp) (entries : List GitIndexEntry)
    (paths : List (List PComp)) (delete skipMissing : Bool) :
    Except String (List GitIndexEntry × List (List PComp)) := do
  let relpaths ← paths.mapM (fun p =>
    if worktree.isPrefixOf p then Except.ok (p.drop worktree.length)
    else Except.error "Cannot remove paths outside of worktree")
  let (kept, removeFiles) := rmPartition worktree relpaths entries
  if relpaths.all (fun ap => decide (ap ∈ removeFiles) || skipMissing) then
    .ok (kept, if delete then removeFiles else [])
  else .error "Cannot remove paths not in the index"

/-- Worktree `/w` and an index holding the single entry `"a"`. -/
def c7Worktree : List PComp := [.root, .name [119]]

def c7Entry : GitIndexEntry :=
  ⟨0, 0, 0, 0, 0, 0, 0, 0, List.replicate 40 48, 0, [97]⟩

/-- C7 bug evidence: `rm "/w/a"` on a worktree `/w` whose index contains
exactly `"a"` — the path canonicalizes inside the worktree and has a
matching index entry, so per the claim the entry must be removed and the
file deleted. Instead `relpaths` holds worktree-relative paths while the
comparison key is the absolute `worktree.join(e.path)`, so no entry ever
matches: with `skip_missing = false` (what `run` passes) rm fails with
"Cannot remove paths not in the index", and with `skip_missing = true`
it keeps every entry and deletes nothing. -/
theorem c7_rm_relative_absolute_mismatch :
    rmModel c7Worktree [c7Entry] [[.root, .name [119], .name [97]]] true false =
      .error "Cannot remove paths not in the index" ∧
    rmModel c7Worktree [c7Entry] [[.root, .name [119], .name [97]]] true true =
      .ok ([c7Entry], []) := by
  decide

end RustGit
